import Mathlib

/-!
Verification development for the `c011apsy` wave-function-collapse engine
(`include/c011apsy.hpp`).  The C++ data structures and algorithms are
shallowly embedded: `uint64_t` words become `Nat` kept below `2 ^ 64`
with explicit masks, shifts are the mathematical shifts on `Nat`,
`std::vector` becomes `List`, and the Mersenne-Twister random source is
modelled as an abstract stream of draws.
-/

set_option linter.unusedVariables false

namespace C011apsy

/-! ## The runtime bitset (`c011apsy::Bitset`) -/

/-- `Bitset::Stride`: bits per storage word (`uint64_t`). -/
def Stride : Nat := 64

/-- The all-ones 64-bit word `~uint64_t(0)`. -/
def wordMax : Nat := 2 ^ 64 - 1

/-- `c011apsy::Bitset`: `m_data` is the word vector, `m_size` the number of
significant bits. -/
structure Bitset where
  data : List Nat
  size : Nat
deriving DecidableEq, Repr

instance : Inhabited Bitset := ⟨⟨[], 0⟩⟩

/-- Kernighan loop `while (n) { n &= n - 1; ++result; }` from
`Bitset::count`, fuelled by the initial value (the value strictly
decreases each pass, so `n` itself is enough fuel). -/
def countWordGo : Nat → Nat → Nat
  | 0, _ => 0
  | fuel + 1, n => if n = 0 then 0 else 1 + countWordGo fuel (n &&& (n - 1))

/-- Number of set bits of one word, via the source's Kernighan loop. -/
def countWord (n : Nat) : Nat := countWordGo n n

/-- `m_data.back() >>= (Stride - m_size % Stride)`: mask applied to the
last word after a fill, exactly as written in the source (for
`size % 64 = 0` the shift distance is 64). -/
def maskBack (data : List Nat) (size : Nat) : List Nat :=
  data.set (data.length - 1)
    (data.getD (data.length - 1) 0 >>> (Stride - size % Stride))

/-- The constructor `Bitset::Bitset(size_t size, bool on)`. -/
def Bitset.make (size : Nat) (turnOn : Bool) : Bitset :=
  let dataSize := size / Stride + (if size % Stride > 0 then 1 else 0)
  ⟨maskBack (List.replicate dataSize (if turnOn then wordMax else 0)) size, size⟩

/-- `Bitset::operator[]`: `(m_data[dataId] >> bitId) & 0x1`. -/
def Bitset.get (bs : Bitset) (index : Nat) : Bool :=
  (bs.data.getD (index / Stride) 0 >>> (index % Stride)) &&& 1 == 1

/-- `Bitset::set(index, on)`. -/
def Bitset.set (bs : Bitset) (index : Nat) (turnOn : Bool) : Bitset :=
  let dataId := index / Stride
  let mask : Nat := 1 <<< (index % Stride)
  if turnOn then
    ⟨bs.data.set dataId (bs.data.getD dataId 0 ||| mask), bs.size⟩
  else
    ⟨bs.data.set dataId (bs.data.getD dataId 0 &&& (wordMax ^^^ mask)), bs.size⟩

/-- `Bitset::reset(on)`: fill every word, then shift the last word as the
source does. -/
def Bitset.reset (bs : Bitset) (turnOn : Bool) : Bitset :=
  let c := if turnOn then wordMax else 0
  ⟨maskBack (bs.data.map fun _ => c) bs.size, bs.size⟩

/-- `Bitset::intersect`. -/
def Bitset.intersect (bs other : Bitset) : Bitset :=
  ⟨List.zipWith (· &&& ·) bs.data other.data, bs.size⟩

/-- `Bitset::add` (union). -/
def Bitset.add (bs other : Bitset) : Bitset :=
  ⟨List.zipWith (· ||| ·) bs.data other.data, bs.size⟩

/-- `Bitset::empty`. -/
def Bitset.empty (bs : Bitset) : Bool := bs.data.all (· == 0)

/-- `Bitset::count`. -/
def Bitset.count (bs : Bitset) : Nat := (bs.data.map countWord).sum

/-- The word loop of `Bitset::single`, with the running flag `result`;
an early `return false` is modelled by producing `false` outright. -/
def singleGo : List Nat → Bool → Bool
  | [], r => r
  | n :: rest, r =>
    if n = 0 then singleGo rest r
    else if r || decide (n &&& (n - 1) ≠ 0) then false
    else singleGo rest true

/-- `Bitset::single`. -/
def Bitset.single (bs : Bitset) : Bool := singleGo bs.data false

/-- The inner loop of `Bitset::first`:
`while ((n & 1) == 0) { ++bit; n >>= 1; }`, fuelled by `n`. -/
def tzGo : Nat → Nat → Nat
  | 0, _ => 0
  | fuel + 1, n => if n &&& 1 = 1 then 0 else 1 + tzGo fuel (n >>> 1)

/-- Trailing-zero count of one (nonzero) word. -/
def tzWord (n : Nat) : Nat := tzGo n n

/-- The word loop of `Bitset::first`. -/
def firstGo (size : Nat) : List Nat → Nat → Nat
  | [], _ => size
  | n :: rest, step => if n = 0 then firstGo size rest (step + Stride) else step + tzWord n

/-- `Bitset::first`. -/
def Bitset.first (bs : Bitset) : Nat := firstGo bs.size bs.data 0

/-! ## Random source

The engine owns a `std::mt19937_64` seeded in `Wave::initRandom` and draws
from it through `std::uniform_int_distribution<size_t>(0, k)`. -/

/-- Modelled from the spec: the 64-bit Mersenne Twister is a deterministic
pseudo-random generator, used only through
`std::uniform_int_distribution(0, k)` which yields a value in `[0, k]`.
Its internals are outside the repository, so it is modelled abstractly as
a stream of draws together with a cursor; one distribution call consumes
one draw and reduces it into `[0, k]`. -/
structure Rng where
  stream : Nat → Nat
  pos : Nat

/-- Modelled from the spec: one `std::uniform_int_distribution<size_t>(0, bound)(mt)`
call — consume the next stream element and reduce it into `[0, bound]`. -/
def Rng.draw (r : Rng) (bound : Nat) : Nat × Rng :=
  (r.stream r.pos % (bound + 1), ⟨r.stream, r.pos + 1⟩)

/-! ## The Wave engine (`c011apsy::Wave<T>`) -/

/-- `Wave<T>::Dir` is a plain enum used as an `int` index
(`Up = 0, Down = 1, Left = 2, Right = 3`); directions stay `Nat` here. -/
def dirUp : Nat := 0
def dirDown : Nat := 1
def dirLeft : Nat := 2
def dirRight : Nat := 3

/-- `Wave<T>::Neighbors`: one bitset of allowed neighbor tiles per direction. -/
structure Neighbors where
  up : Bitset
  down : Bitset
  left : Bitset
  right : Bitset
deriving DecidableEq, Repr

/-- `Neighbors::Neighbors(size_t tiles)`. -/
def Neighbors.make (tiles : Nat) : Neighbors :=
  ⟨Bitset.make tiles false, Bitset.make tiles false,
   Bitset.make tiles false, Bitset.make tiles false⟩

instance : Inhabited Neighbors := ⟨Neighbors.make 0⟩

/-- `Neighbors::operator[](int dir)`; any value other than `Up`, `Down`,
`Left` falls through to `right`, as in the source `switch`. -/
def Neighbors.dir (nb : Neighbors) (dir : Nat) : Bitset :=
  match dir with
  | 0 => nb.up
  | 1 => nb.down
  | 2 => nb.left
  | _ => nb.right

/-- Writing through `Neighbors::operator[](int dir)`. -/
def Neighbors.setDir (nb : Neighbors) (dir : Nat) (b : Bitset) : Neighbors :=
  match dir with
  | 0 => { nb with up := b }
  | 1 => { nb with down := b }
  | 2 => { nb with left := b }
  | _ => { nb with right := b }

/-- `Wave<T>::Seed`. -/
structure Seed (T : Type) where
  tiles : List T
  weights : List Nat
  neighbors : List Neighbors
  rndSeed : Nat
deriving Repr

/-- `Wave<T>`: the engine state.  `rng` stands for the owned
`std::mt19937_64`; the callback is modelled by accumulating the `(x, y)`
arguments of every invocation into a log, which leaves the engine state
itself untouched exactly as a (non-mutating) callback would. -/
structure Wave (T : Type) where
  seed : Seed T
  allTiles : Bitset
  possibleNeighbors : List Bitset
  rng : Rng
  field : List Bitset
  fieldW : Nat
  fieldH : Nat
  uncertaintyCurrent : Nat

/-- `Wave<T>::Wave(width, height)`. -/
def Wave.new (T : Type) (width height : Nat) : Wave T :=
  { seed := ⟨[], [], [], 0⟩
    allTiles := Bitset.make 1 false
    possibleNeighbors := []
    rng := ⟨fun _ => 0, 0⟩
    field := []
    fieldW := width
    fieldH := height
    uncertaintyCurrent := width * height }

/-- `std::vector::resize(n, v)`: truncate when shrinking, append copies of
`v` when growing, leave existing elements untouched. -/
def resizeList {α : Type} (l : List α) (n : Nat) (v : α) : List α :=
  if n ≤ l.length then l.take n else l ++ List.replicate (n - l.length) v

/-- `Wave<T>::revDir`: the source `switch` returns `Up` for any
value outside the enum. -/
def revDir (dir : Nat) : Nat :=
  match dir with
  | 0 => 1
  | 1 => 0
  | 2 => 3
  | 3 => 2
  | _ => 0

/-- `Wave<T>::fieldIndex(x, y) = y * m_fieldW + x`. -/
def Wave.fieldIndex {T : Type} (w : Wave T) (x y : Nat) : Nat := y * w.fieldW + x

/-- `Wave<T>::getNeighbor(x, y, dir)`: the neighboring cell, or the
`m_allTiles` sentinel at an open boundary. -/
def Wave.getNeighbor {T : Type} (w : Wave T) (x y : Nat) (dir : Nat) : Bitset :=
  if dir = 0 then
    if y > 0 then w.field.getD (w.fieldIndex x (y - 1)) default else w.allTiles
  else if dir = 1 then
    if y < w.fieldH - 1 then w.field.getD (w.fieldIndex x (y + 1)) default else w.allTiles
  else if dir = 2 then
    if x > 0 then w.field.getD (w.fieldIndex (x - 1) y) default else w.allTiles
  else if dir = 3 then
    if x < w.fieldW - 1 then w.field.getD (w.fieldIndex (x + 1) y) default else w.allTiles
  else w.allTiles

/-- `Wave<T>::initRandom`: a zero seed is replaced by a value from
`std::random_device` (the nondeterministic `entropy` input); the
Mersenne Twister is then seeded, which fixes its whole draw stream
(`mtStream` maps a seed to that stream). -/
def Wave.initRandom {T : Type} (mtStream : Nat → Nat → Nat) (entropy : Nat)
    (w : Wave T) : Wave T :=
  let s := if w.seed.rndSeed = 0 then entropy else w.seed.rndSeed
  { w with seed := { w.seed with rndSeed := s }, rng := ⟨mtStream s, 0⟩ }

/-- `Wave<T>::initField`: four scratch bitsets are `emplace_back`ed (an
append), `m_allTiles` is rebuilt, and the field is `resize`d. -/
def Wave.initField {T : Type} (w : Wave T) : Wave T :=
  let n := w.seed.tiles.length
  { w with
    possibleNeighbors := w.possibleNeighbors ++ List.replicate 4 (Bitset.make n false)
    allTiles := Bitset.make n true
    field := resizeList w.field (w.fieldW * w.fieldH) (Bitset.make n true) }

/-- `Wave<T>::init(const Seed&)`. -/
def Wave.initFromSeed {T : Type} (mtStream : Nat → Nat → Nat) (entropy : Nat)
    (w : Wave T) (s : Seed T) : Wave T :=
  (Wave.initRandom mtStream entropy { w with seed := s }).initField

/-- `Wave<T>::isNeighbor(original, candidate, dir, w, h)`: the `memcmp`
overlap tests, one row skipped for `Up`/`Down`, one column for
`Left`/`Right`. -/
def isNeighbor {T : Type} [DecidableEq T]
    (original candidate : List T) (dir w h : Nat) : Bool :=
  let offset1 := dir % 2
  let offset2 := 1 - offset1
  if dir = 0 ∨ dir = 1 then
    decide (((original.drop (offset1 * w)).take (w * (h - 1)))
          = ((candidate.drop (offset2 * w)).take (w * (h - 1))))
  else
    (List.range h).all fun y =>
      decide (((original.drop (y * w + offset1)).take (w - 1))
            = ((candidate.drop (y * w + offset2)).take (w - 1)))

/-- One row of the `memcpy` loop extracting the window at `(x, y)`:
the tile is the concatenation of `th` rows of `tw` pattern values. -/
def extractTile {T : Type} (pattern : List T) (pw x y tw th : Nat) : List T :=
  (List.range th).flatMap fun i => (pattern.drop ((y + i) * pw + x)).take tw

/-- The deduplication step of `Wave<T>::init(pattern, ...)` for one window
position: a new block gets weight 1 and pushes its top-left value, a seen
block bumps its weight. -/
def dedupStep {T : Type} [DecidableEq T] [Inhabited T]
    (st : List (List T) × List T × List Nat) (tile : List T) :
    List (List T) × List T × List Nat :=
  let (blocks, tiles, weights) := st
  match blocks.findIdx? (fun b => decide (b = tile)) with
  | none => (blocks ++ [tile], tiles ++ [tile.headI], weights ++ [1])
  | some k => (blocks, tiles, weights.set k (weights.getD k 0 + 1))

/-- The symmetric double write
`m_seed.neighbors[i][dir].set(j, true); m_seed.neighbors[j][revDir(dir)].set(i, true)`. -/
def learnPair (nbs : List Neighbors) (i dir j : Nat) : List Neighbors :=
  let nbs := nbs.set i ((nbs.getD i default).setDir dir
    (((nbs.getD i default).dir dir).set j true))
  nbs.set j ((nbs.getD j default).setDir (revDir dir)
    (((nbs.getD j default).dir (revDir dir)).set i true))

/-- The adjacency-learning triple loop of `Wave<T>::init(pattern, ...)`:
`i` over all tiles, `dir` over the four directions, `j` from `i` up. -/
def learnNeighbors {T : Type} [DecidableEq T]
    (blocks : List (List T)) (tw th : Nat) (nbs0 : List Neighbors) : List Neighbors :=
  let n := blocks.length
  (List.range n).foldl (fun nbs i =>
    (List.range 4).foldl (fun nbs dir =>
      ((List.range (n - i)).map (· + i)).foldl (fun nbs j =>
        if isNeighbor (blocks.getD i []) (blocks.getD j []) dir tw th then
          learnPair nbs i dir j
        else nbs) nbs) nbs) nbs0

/-- `Wave<T>::init(pattern, patternWidth, patternHeight, tileWidth,
tileHeight, rndSeed)`: window extraction (outer `x`, inner `y`),
deduplication, adjacency learning, then RNG and field initialization.
Note the source appends to the existing `m_seed` vectors and `resize`s
the existing `m_seed.neighbors`. -/
def Wave.initFromPattern {T : Type} [DecidableEq T] [Inhabited T]
    (mtStream : Nat → Nat → Nat) (entropy : Nat) (w : Wave T)
    (pattern : List T) (patternWidth patternHeight tileWidth tileHeight : Nat)
    (rndSeed : Nat) : Wave T :=
  let origins := (List.range (patternWidth - tileWidth + 1)).flatMap fun x =>
    (List.range (patternHeight - tileHeight + 1)).map fun y => (x, y)
  let st := origins.foldl (fun st xy =>
      dedupStep st (extractTile pattern patternWidth xy.1 xy.2 tileWidth tileHeight))
    ([], w.seed.tiles, w.seed.weights)
  let blocks := st.1
  let nbs0 := resizeList w.seed.neighbors blocks.length (Neighbors.make blocks.length)
  let nbs := learnNeighbors blocks tileWidth tileHeight nbs0
  let w := { w with seed :=
    { tiles := st.2.1, weights := st.2.2, neighbors := nbs, rndSeed := rndSeed } }
  (Wave.initRandom mtStream entropy w).initField

/-- The per-direction body of `Wave<T>::filterCandidates(id)`: clear the
scratch bitset for `dir`, union into it the reverse-direction rules of
every tile possible in that neighbor, store it back and intersect the
candidate set with it. -/
def fcStep {T : Type} (w : Wave T) (id : Nat)
    (acc : Bitset × List Bitset) (dir : Nat) : Bitset × List Bitset :=
  let (cand, pns) := acc
  let pn := (pns.getD dir default).reset false
  let cellNeighbors := w.getNeighbor (id % w.fieldW) (id / w.fieldW) dir
  let pn := (List.range cellNeighbors.size).foldl (fun pn i =>
    if cellNeighbors.get i then
      pn.add ((w.seed.neighbors.getD i default).dir (revDir dir))
    else pn) pn
  (cand.intersect pn, pns.set dir pn)

/-- `Wave<T>::filterCandidates(id)`: restore an empty cell to full, run
the four-direction `fcStep` loop, and on an empty intersection fall back
to the union of the four scratch sets. -/
def Wave.filterCandidates {T : Type} (w : Wave T) (id : Nat) : Wave T :=
  let candidates := w.field.getD id default
  let candidates := if candidates.empty then candidates.reset true else candidates
  let res := [0, 1, 2, 3].foldl (fcStep w id) (candidates, w.possibleNeighbors)
  let cand := res.1
  let pns := res.2
  let cand :=
    if cand.empty then
      (List.range 4).foldl (fun c i => c.add (pns.getD i default)) cand
    else cand
  { w with field := w.field.set id cand, possibleNeighbors := pns }

/-- `Wave<T>::collapseCell(id)`: filter, build the weighted pool (from all
tiles if the cell is empty), draw, and overwrite the cell with the chosen
singleton. -/
def Wave.collapseCell {T : Type} (w : Wave T) (id : Nat) : Wave T :=
  let w := w.filterCandidates id
  let cell := w.field.getD id default
  let candidates : List Nat :=
    if cell.empty then
      (List.range w.seed.tiles.length).flatMap fun i =>
        List.replicate (w.seed.weights.getD i 0) i
    else
      (List.range cell.size).flatMap fun i =>
        if cell.get i then List.replicate (w.seed.weights.getD i 0) i else []
  let dr := w.rng.draw (candidates.length - 1)
  let startTile := candidates.getD dr.1 0
  { w with field := w.field.set id (((w.field.getD id default).reset false).set startTile true)
           rng := dr.2 }

/-- `Wave<T>::propagate(id0, wavefront, visited)`: enqueue the in-bounds
neighbors that are neither visited nor singleton, in the order
Up, Down, Left, Right. -/
def Wave.propagate {T : Type} (w : Wave T) (id0 : Nat)
    (wavefront : List Nat) (visited : List Bool) : List Nat :=
  let x := id0 % w.fieldW
  let y := id0 / w.fieldW
  let push := fun (q : List Nat) (id : Nat) =>
    if visited.getD id false = false ∧ (w.field.getD id default).single = false then
      q ++ [id]
    else q
  let q := if y > 0 then push wavefront (w.fieldIndex x (y - 1)) else wavefront
  let q := if y < w.fieldH - 1 then push q (w.fieldIndex x (y + 1)) else q
  let q := if x > 0 then push q (w.fieldIndex (x - 1) y) else q
  if x < w.fieldW - 1 then push q (w.fieldIndex (x + 1) y) else q

/-- The BFS loop of `Wave<T>::collapseStep`, fuelled; `none` means the
fuel ran out before the wavefront drained.  The callback log records the
`(x, y)` arguments in invocation order. -/
def stepLoop {T : Type} :
    Nat → Wave T → List Nat → List Bool → List (Nat × Nat) →
    Option (Wave T × List (Nat × Nat))
  | _, w, [], _, log => some (w, log)
  | 0, _, _ :: _, _, _ => none
  | fuel + 1, w, currentId :: rest, visited, log =>
    if visited.getD currentId false then stepLoop fuel w rest visited log
    else
      let visited := visited.set currentId true
      let place := w.field.getD currentId default
      let initialVariance := place.count
      if initialVariance = 1 then stepLoop fuel w rest visited log
      else
        let w2 := w.filterCandidates currentId
        let front2 :=
          if initialVariance ≠ (w2.field.getD currentId default).count then
            w2.propagate currentId rest visited
          else rest
        stepLoop fuel w2 front2 visited
          (log ++ [(currentId % w.fieldW, currentId / w.fieldW)])

/-- `Wave<T>::collapseStep(id0, c)`: observe `id0`, invoke the callback
for it, preseed `visited` with the singleton cells, seed the wavefront
from `id0`, and run the BFS loop. -/
def Wave.collapseStep {T : Type} (fuel : Nat) (w : Wave T) (id0 : Nat)
    (log : List (Nat × Nat)) : Option (Wave T × List (Nat × Nat)) :=
  let w1 := w.collapseCell id0
  let log1 := log ++ [(id0 % w1.fieldW, id0 / w1.fieldW)]
  let visited := w1.field.map fun b => b.single
  let front := w1.propagate id0 [] visited
  stepLoop fuel w1 front visited log1

/-- `Wave<T>::getCollapsePoint(totalUncertainty)`: scan all cells,
summing the candidate counts and collecting the cells of minimal count
`> 1` (the running minimum starts at the tile count); then pick one of
the collected cells uniformly, or return cell 0 with the generator
untouched when all cells are decided.  `gcpStep` is the loop body of that
scan, with accumulator `(uncollapsed, uncollapsedMax, totalUncertainty)`. -/
def gcpStep {T : Type} (w : Wave T) (acc : List Nat × Nat × Nat) (i : Nat) :
    List Nat × Nat × Nat :=
  let (uncollapsed, uncollapsedMax, total) := acc
  let len := (w.field.getD i default).count
  let total := total + len
  if 1 < len ∧ len ≤ uncollapsedMax then
    (if len = uncollapsedMax then uncollapsed ++ [i] else [i], len, total)
  else (uncollapsed, uncollapsedMax, total)

def Wave.getCollapsePoint {T : Type} (w : Wave T) : Nat × Nat × Rng :=
  let acc := (List.range w.field.length).foldl (gcpStep w)
    ([], w.seed.tiles.length, 0)
  let uncollapsed := acc.1
  let total := acc.2.2
  if uncollapsed.isEmpty then (0, total, w.rng)
  else
    let dr := w.rng.draw (uncollapsed.length - 1)
    (uncollapsed.getD dr.1 0, total, dr.2)

/-- The `while` loop of `Wave<T>::collapse`, fuelled on the number of
observation steps; `none` means the fuel ran out. -/
def collapseGo {T : Type} (oneStep : Bool) (stepFuel : Nat) :
    Nat → Wave T → Nat → List (Nat × Nat) →
    Option (Bool × Wave T × List (Nat × Nat))
  | fuel, w, id0, log =>
    if w.uncertaintyCurrent ≤ w.field.length then some (true, w, log)
    else
      match fuel with
      | 0 => none
      | fuel + 1 =>
        match w.collapseStep stepFuel id0 log with
        | none => none
        | some (w1, log1) =>
          let gcp := w1.getCollapsePoint
          let w2 := { w1 with uncertaintyCurrent := gcp.2.1, rng := gcp.2.2 }
          if oneStep then some (decide (gcp.2.1 = w1.field.length), w2, log1)
          else collapseGo oneStep stepFuel fuel w2 gcp.1 log1

/-- `Wave<T>::collapse(oneStep, c)`: prime `m_uncertaintyCurrent`, find
the first collapse point, and loop. -/
def Wave.collapse {T : Type} (oneStep : Bool) (fuel stepFuel : Nat)
    (w : Wave T) : Option (Bool × Wave T × List (Nat × Nat)) :=
  let w1 := { w with uncertaintyCurrent := w.field.length }
  let gcp := w1.getCollapsePoint
  let w2 := { w1 with uncertaintyCurrent := gcp.2.1, rng := gcp.2.2 }
  collapseGo oneStep stepFuel fuel w2 gcp.1 []

/-- `Wave<T>::getUncertainty`: `m_uncertaintyCurrent / float(m_field.size())`,
with the float division modelled as exact rational division. -/
def Wave.getUncertainty {T : Type} (w : Wave T) : ℚ :=
  (w.uncertaintyCurrent : ℚ) / (w.field.length : ℚ)

/-! ## Derived notions used by the statements -/

/-- Total candidate count of a field: the sum over all cells of the
cell's popcount. -/
def sumCounts (f : List Bitset) : Nat := (f.map Bitset.count).sum

/-- Candidate count of cell `i` of a wave. -/
def cntAt {T : Type} (w : Wave T) (i : Nat) : Nat :=
  (w.field.getD i default).count

/-- The cells whose candidate count equals `m`, in index order. -/
def ties {T : Type} (w : Wave T) (m : Nat) : List Nat :=
  (List.range w.field.length).filter fun i => decide (cntAt w i = m)

/-! ## Word-level helper lemmas -/

theorem countWordGo_zero (fuel : Nat) : countWordGo fuel 0 = 0 := by
  cases fuel <;> simp [countWordGo]

theorem countWord_unfold {n : Nat} (h : n ≠ 0) :
    countWord n = 1 + countWordGo (n - 1) (n &&& (n - 1)) := by
  obtain ⟨m, rfl⟩ := Nat.exists_eq_succ_of_ne_zero h
  simp [countWord, countWordGo]

theorem countWord_pos {n : Nat} (h : n ≠ 0) : 1 ≤ countWord n := by
  rw [countWord_unfold h]; omega

theorem countWord_eq_one {n : Nat} (h : n ≠ 0) (h2 : n &&& (n - 1) = 0) :
    countWord n = 1 := by
  rw [countWord_unfold h, h2, countWordGo_zero]

theorem singleGo_allzero {l : List Nat} (h : ∀ x ∈ l, x = 0) (r : Bool) :
    singleGo l r = r := by
  induction l with
  | nil => rfl
  | cons n rest ih =>
    have hn : n = 0 := h n (by simp)
    simp only [singleGo, hn, if_pos rfl]
    exact ih fun x hx => h x (by simp [hx])

theorem singleGo_sum {l : List Nat} {r : Bool} (h : singleGo l r = true) :
    (l.map countWord).sum = if r then 0 else 1 := by
  induction l generalizing r with
  | nil =>
    simp only [singleGo] at h
    subst h; simp
  | cons n rest ih =>
    by_cases hn : n = 0
    · subst hn
      simp only [singleGo, if_pos rfl] at h
      have := ih h
      simpa [countWord, countWordGo] using this
    · simp only [singleGo, if_neg hn] at h
      by_cases hbad : (r || decide (n &&& (n - 1) ≠ 0)) = true
      · rw [if_pos hbad] at h
        simp at h
      · rw [if_neg hbad] at h
        have hr : r = false := by cases r <;> simp_all
        have hand : n &&& (n - 1) = 0 := by
          by_contra hc
          exact hbad (by simp [hc])
        subst hr
        have := ih h
        simp only [if_pos rfl] at this
        simp [List.map_cons, List.sum_cons, this, countWord_eq_one hn hand]

/-- `Bitset::single` implies popcount 1. -/
theorem Bitset.count_of_single {bs : Bitset} (h : bs.single = true) :
    bs.count = 1 := by
  have := singleGo_sum (l := bs.data) (r := false) h
  simpa [Bitset.count] using this

/-- A bitset that is not `empty` has popcount at least 1. -/
theorem Bitset.count_pos_of_not_empty {bs : Bitset} (h : bs.empty = false) :
    1 ≤ bs.count := by
  unfold Bitset.empty at h
  obtain ⟨x, hx, hne⟩ : ∃ x ∈ bs.data, ¬(x == 0) = true := by
    simpa [List.all_eq_true] using h
  have hx0 : x ≠ 0 := by simpa using hne
  have : countWord x ≤ (bs.data.map countWord).sum := by
    exact List.single_le_sum (by simp) _ (List.mem_map_of_mem countWord hx)
  calc 1 ≤ countWord x := countWord_pos hx0
    _ ≤ bs.count := this

/-! ## List helper lemmas -/

theorem getD_set_self {α : Type} {l : List α} {i : Nat} {v d : α}
    (h : i < l.length) : (l.set i v).getD i d = v := by
  simp [List.getD_eq_getElem?_getD, List.getElem?_set_self h]

theorem getD_set_ne {α : Type} {l : List α} {i k : Nat} {v d : α}
    (h : i ≠ k) : (l.set i v).getD k d = l.getD k d := by
  simp [List.getD_eq_getElem?_getD, List.getElem?_set_ne h]

theorem foldl_preserve {α β : Type} (P : β → Prop) {step : β → α → β} :
    ∀ (l : List α) (b : β), (∀ b a, a ∈ l → P b → P (step b a)) → P b →
      P (l.foldl step b)
  | [], _, _, hb => hb
  | a :: l, b, hstep, hb =>
    foldl_preserve P l (step b a)
      (fun b a ha hb => hstep b a (List.mem_cons_of_mem _ ha) hb)
      (hstep b a (List.mem_cons_self a l) hb)

/-- The list `[l.getD 0 d, ..., l.getD (len-1) d]` is `l` itself. -/
theorem map_getD_range {α : Type} (l : List α) (d : α) :
    (List.range l.length).map (fun i => l.getD i d) = l := by
  apply List.ext_getElem
  · simp
  · intro i h1 h2
    simp [List.getD_eq_getElem?_getD, List.getElem?_eq_getElem h2]

/-! ## `getCollapsePoint` scan lemmas -/

theorem gcpStep_total {T : Type} (w : Wave T) (acc : List Nat × Nat × Nat)
    (i : Nat) : (gcpStep w acc i).2.2 = acc.2.2 + cntAt w i := by
  obtain ⟨u, m, t⟩ := acc
  unfold gcpStep cntAt
  dsimp only
  split <;> rfl

theorem gcpFold_total {T : Type} (w : Wave T) :
    ∀ (n : Nat) (acc : List Nat × Nat × Nat),
      ((List.range n).foldl (gcpStep w) acc).2.2
        = acc.2.2 + ((List.range n).map (cntAt w)).sum := by
  intro n
  induction n with
  | zero => simp
  | succ n ih =>
    intro acc
    rw [List.range_succ, List.foldl_append, List.map_append]
    simp [gcpStep_total, ih, Nat.add_assoc]

/-- The `totalUncertainty` output parameter of `getCollapsePoint` is the
total candidate count of the field. -/
theorem getCollapsePoint_total {T : Type} (w : Wave T) :
    w.getCollapsePoint.2.1 = sumCounts w.field := by
  have hsum : ((List.range w.field.length).map (cntAt w)).sum = sumCounts w.field := by
    unfold sumCounts cntAt
    conv_rhs => rw [← map_getD_range w.field default]
    rw [List.map_map, Function.comp_def]
  unfold Wave.getCollapsePoint
  dsimp only
  rw [gcpFold_total]
  split <;> simp [hsum]

/-- When no cell has more than one candidate, the scan collects nothing. -/
theorem gcpFold_uncollapsed_nil {T : Type} (w : Wave T)
    (h : ∀ i < w.field.length, cntAt w i ≤ 1) :
    ((List.range w.field.length).foldl (gcpStep w)
      ([], w.seed.tiles.length, 0)).1 = [] := by
  have : ∀ (acc : List Nat × Nat × Nat) i, i ∈ List.range w.field.length →
      acc.1 = [] → (gcpStep w acc i).1 = [] := by
    intro acc i hi hacc
    obtain ⟨u, m, t⟩ := acc
    have hcnt : cntAt w i ≤ 1 := h i (List.mem_range.mp hi)
    unfold gcpStep
    dsimp only
    rw [if_neg]
    · exact hacc
    · unfold cntAt at hcnt
      omega
  exact foldl_preserve _ (List.range w.field.length) _ this rfl

/-- On a field whose cells all hold at most one candidate,
`getCollapsePoint` returns cell 0, the total count, and an untouched
generator. -/
theorem getCollapsePoint_all_le_one {T : Type} (w : Wave T)
    (h : ∀ i < w.field.length, cntAt w i ≤ 1) :
    w.getCollapsePoint = (0, sumCounts w.field, w.rng) := by
  have htot := getCollapsePoint_total w
  have hnil := gcpFold_uncollapsed_nil w h
  unfold Wave.getCollapsePoint at htot ⊢
  dsimp only at htot ⊢
  rw [hnil] at htot ⊢
  simpa using htot

/-! ## Shared collapse lemmas -/

theorem sumCounts_all_single {f : List Bitset}
    (h : ∀ b ∈ f, b.single = true) : sumCounts f = f.length := by
  unfold sumCounts
  induction f with
  | nil => rfl
  | cons b rest ih =>
    have hb := Bitset.count_of_single (h b (by simp))
    have := ih fun b hb => h b (by simp [hb])
    simp [hb, this]
    omega

/-- On an already fully-decided field, `collapse` returns `true` at once:
the field, the generator position and the callback log are untouched, and
only the cached uncertainty is rewritten to the field size. -/
theorem cntAt_le_one_of_single {T : Type} (w : Wave T)
    (h : ∀ b ∈ w.field, b.single = true) :
    ∀ i < w.field.length, cntAt w i ≤ 1 := by
  intro i hi
  unfold cntAt
  have hmem : w.field.getD i default ∈ w.field := by
    rw [List.getD_eq_getElem?_getD, List.getElem?_eq_getElem hi]
    exact List.getElem_mem hi
  rw [Bitset.count_of_single (h _ hmem)]

/-- On an already fully-decided field, `collapse` returns `true` at once:
the field, the generator position and the callback log are untouched, and
only the cached uncertainty is rewritten to the field size. -/
theorem collapse_all_single {T : Type} (oneStep : Bool) (fuel stepFuel : Nat)
    (w : Wave T) (h : ∀ b ∈ w.field, b.single = true) :
    Wave.collapse oneStep fuel stepFuel w
      = some (true, { w with uncertaintyCurrent := w.field.length }, []) := by
  have hgcp :
      (({ w with uncertaintyCurrent := w.field.length } : Wave T)).getCollapsePoint
        = (0, sumCounts w.field, w.rng) :=
    getCollapsePoint_all_le_one _ (cntAt_le_one_of_single _ h)
  have hsum : sumCounts w.field = w.field.length := sumCounts_all_single h
  unfold Wave.collapse
  dsimp only
  rw [hgcp]
  dsimp only
  rw [hsum]
  unfold collapseGo
  rw [if_pos (Nat.le_refl _)]

/-- Invariant of the collapse loop: whenever `collapseGo` returns, the
cached uncertainty of the returned wave equals the field's total
candidate count, and a `true` result forces that total to be at most the
field size. -/
theorem collapseGo_sum {T : Type} (oneStep : Bool) (sf : Nat) :
    ∀ (fuel : Nat) (w : Wave T) (id0 : Nat) (log : List (Nat × Nat))
      (r : Bool) (w' : Wave T) (log' : List (Nat × Nat)),
      collapseGo oneStep sf fuel w id0 log = some (r, w', log') →
      w.uncertaintyCurrent = sumCounts w.field →
      w'.uncertaintyCurrent = sumCounts w'.field ∧
        (r = true → sumCounts w'.field ≤ w'.field.length) := by
  intro fuel
  induction fuel with
  | zero =>
    intro w id0 log r w' log' h hinv
    unfold collapseGo at h
    by_cases hg : w.uncertaintyCurrent ≤ w.field.length
    · rw [if_pos hg] at h
      obtain ⟨rfl, rfl, rfl⟩ :
          true = r ∧ w = w' ∧ log = log' := by
        have := Option.some.inj h
        exact ⟨congrArg Prod.fst this, congrArg (Prod.fst ∘ Prod.snd) this,
          congrArg (Prod.snd ∘ Prod.snd) this⟩
      refine ⟨hinv, fun _ => ?_⟩
      rw [← hinv]
      exact hg
    · rw [if_neg hg] at h
      simp at h
  | succ fuel ih =>
    intro w id0 log r w' log' h hinv
    unfold collapseGo at h
    by_cases hg : w.uncertaintyCurrent ≤ w.field.length
    · rw [if_pos hg] at h
      obtain ⟨rfl, rfl, rfl⟩ :
          true = r ∧ w = w' ∧ log = log' := by
        have := Option.some.inj h
        exact ⟨congrArg Prod.fst this, congrArg (Prod.fst ∘ Prod.snd) this,
          congrArg (Prod.snd ∘ Prod.snd) this⟩
      refine ⟨hinv, fun _ => ?_⟩
      rw [← hinv]
      exact hg
    · rw [if_neg hg] at h
      cases hstep : Wave.collapseStep sf w id0 log with
      | none => rw [hstep] at h; simp at h
      | some p =>
        obtain ⟨w1, log1⟩ := p
        rw [hstep] at h
        dsimp only at h
        have hinv2 :
            ({ w1 with uncertaintyCurrent := w1.getCollapsePoint.2.1,
                       rng := w1.getCollapsePoint.2.2 } : Wave T).uncertaintyCurrent
              = sumCounts ({ w1 with
                  uncertaintyCurrent := w1.getCollapsePoint.2.1,
                  rng := w1.getCollapsePoint.2.2 } : Wave T).field :=
          getCollapsePoint_total w1
        by_cases ho : oneStep = true
        · rw [if_pos ho] at h
          obtain ⟨h1, h2, _⟩ :
              decide (w1.getCollapsePoint.2.1 = w1.field.length) = r ∧
              ({ w1 with uncertaintyCurrent := w1.getCollapsePoint.2.1,
                         rng := w1.getCollapsePoint.2.2 } : Wave T) = w' ∧
              log1 = log' := by
            have := Option.some.inj h
            exact ⟨congrArg Prod.fst this, congrArg (Prod.fst ∘ Prod.snd) this,
              congrArg (Prod.snd ∘ Prod.snd) this⟩
          subst h2
          refine ⟨hinv2, fun hr => ?_⟩
          rw [hr] at h1
          have : w1.getCollapsePoint.2.1 = w1.field.length := of_decide_eq_true h1
          rw [← hinv2]
          exact Nat.le_of_eq this
        · rw [if_neg ho] at h
          exact ih _ _ _ _ _ _ h hinv2

/-- Each element at least 1 and total at most the length forces every
element to be exactly 1. -/
theorem all_eq_one_of_sum_le_length {l : List Nat}
    (h1 : ∀ x ∈ l, 1 ≤ x) (hs : l.sum ≤ l.length) : ∀ x ∈ l, x = 1 := by
  induction l with
  | nil => simp
  | cons a t ih =>
    have hts : t.length ≤ t.sum :=
      List.length_le_sum_of_one_le t fun x hx => h1 x (by simp [hx])
    have ha : 1 ≤ a := h1 a (by simp)
    simp only [List.sum_cons, List.length_cons] at hs
    intro x hx
    rcases List.mem_cons.mp hx with rfl | hx
    · omega
    · exact ih (fun x hx => h1 x (by simp [hx])) (by omega) x hx

/-! ## Concrete instances used by witnesses and counterexamples -/

/-- A fixed draw stream standing for one concrete Mersenne-Twister run. -/
def mt0 : Nat → Nat → Nat := fun _ _ => 0

/-- A one-tile seed; its waves are solved from the start. -/
def seedSolo : Seed Bool :=
  { tiles := [true], weights := [1], neighbors := [Neighbors.make 1], rndSeed := 1 }

def wSolo : Wave Bool := (Wave.new Bool 1 1).initFromSeed mt0 0 seedSolo

def wSoloAfter : Wave Bool := { wSolo with uncertaintyCurrent := 1 }

/-- Two tiles whose adjacency rules are all empty: every candidate filter
comes up empty and the fallback union is empty as well. -/
def seedNoRules : Seed Bool :=
  { tiles := [false, true], weights := [1, 1],
    neighbors := [Neighbors.make 2, Neighbors.make 2], rndSeed := 1 }

/-- A 2×1 field over `seedNoRules`. -/
def wNoRules : Wave Bool := (Wave.new Bool 2 1).initFromSeed mt0 0 seedNoRules

/-- A 1×1 field over `seedNoRules`, fresh from `init`. -/
def wNoRules1 : Wave Bool := (Wave.new Bool 1 1).initFromSeed mt0 0 seedNoRules

/-! ## C1 -/

/-- C1, counterexample: on the 2×1 field over `seedNoRules`, `collapse`
(full mode) returns `true` while the second cell's candidate set is empty
— its popcount is 0, not 1.  The claim "whenever collapse returns true,
every cell has exactly one bit set" is false on this input. -/
theorem c1_counterexample :
    (Wave.collapse false 10 10 wNoRules).map
        (fun r => (r.1, r.2.1.field.map Bitset.count, r.2.2))
      = some (true, [1, 0], [(0, 0), (1, 0)]) := by decide

/-- C1, amended: whenever `collapse` returns `true` (either mode), the
total candidate count of the field is at most the number of cells; in
particular, if no cell's candidate set is empty, every cell has exactly
one bit set.  (Cells can be left empty by the contradiction fallback, as
the counterexample shows, which is the only way the per-cell claim can
fail.) -/
theorem c1_collapse_true_candidates {T : Type} (oneStep : Bool)
    (fuel stepFuel : Nat) (w w' : Wave T) (log' : List (Nat × Nat))
    (h : Wave.collapse oneStep fuel stepFuel w = some (true, w', log')) :
    sumCounts w'.field ≤ w'.field.length ∧
      ((∀ b ∈ w'.field, b.empty = false) → ∀ b ∈ w'.field, b.count = 1) := by
  unfold Wave.collapse at h
  dsimp only at h
  have hle := (collapseGo_sum oneStep stepFuel fuel _ _ _ true w' log' h
    (getCollapsePoint_total _)).2 rfl
  refine ⟨hle, fun hne b hb => ?_⟩
  have h1 : ∀ x ∈ w'.field.map Bitset.count, 1 ≤ x := by
    intro x hx
    obtain ⟨c, hc, rfl⟩ := List.mem_map.mp hx
    exact Bitset.count_pos_of_not_empty (hne c hc)
  have hs : (w'.field.map Bitset.count).sum ≤ (w'.field.map Bitset.count).length := by
    rw [List.length_map]
    exact hle
  exact all_eq_one_of_sum_le_length h1 hs b.count (List.mem_map_of_mem Bitset.count hb)

theorem c1_collapse_true_candidates_witness :
    sumCounts wSoloAfter.field ≤ wSoloAfter.field.length ∧
      ((∀ b ∈ wSoloAfter.field, b.empty = false) →
        ∀ b ∈ wSoloAfter.field, b.count = 1) :=
  c1_collapse_true_candidates false 1 1 wSolo wSoloAfter [] rfl

/-! ## C2 -/

/-- C2, counterexample: on a freshly initialized 1×1 wave over two tiles,
`getUncertainty` returns 1 (the cached uncertainty is still the
constructor value `W·H`), while the claimed value
`W·H / Σ popcount = 1 / 2`.  So `getUncertainty` is not `W·H / sum`. -/
theorem c2_counterexample :
    wNoRules1.getUncertainty
      ≠ (wNoRules1.field.length : ℚ) / (sumCounts wNoRules1.field : ℚ) := by
  have h1 : wNoRules1.uncertaintyCurrent = 1 := by decide
  have h2 : sumCounts wNoRules1.field = 2 := by decide
  have h3 : wNoRules1.field.length = 1 := by decide
  unfold Wave.getUncertainty
  rw [h1, h2, h3]
  norm_num

/-- C2, amended: `getUncertainty` returns the cached total candidate
count divided by `W·H` (the reciprocal ratio of the claim, and only
up-to-date after `collapse` has run: right after construction or `init`
the cached value is still `W·H`).  After any `collapse` call it equals
`(Σ_c popcount(F[c])) / (W·H)`, and it is exactly 1 whenever the field is
solved (every cell a singleton). -/
theorem c2_uncertainty_after_collapse {T : Type} (oneStep : Bool)
    (fuel stepFuel : Nat) (w w' : Wave T) (r : Bool) (log' : List (Nat × Nat))
    (h : Wave.collapse oneStep fuel stepFuel w = some (r, w', log')) :
    w'.getUncertainty = (sumCounts w'.field : ℚ) / (w'.field.length : ℚ) ∧
      ((∀ b ∈ w'.field, b.single = true) → 0 < w'.field.length →
        w'.getUncertainty = 1) := by
  unfold Wave.collapse at h
  dsimp only at h
  have hinv := (collapseGo_sum oneStep stepFuel fuel _ _ _ r w' log' h
    (getCollapsePoint_total _)).1
  constructor
  · unfold Wave.getUncertainty
    rw [hinv]
  · intro hall hlen
    unfold Wave.getUncertainty
    rw [hinv, sumCounts_all_single hall]
    have : (w'.field.length : ℚ) ≠ 0 := by
      exact_mod_cast Nat.pos_iff_ne_zero.mp hlen
    field_simp

theorem c2_uncertainty_after_collapse_witness :
    wSoloAfter.getUncertainty
        = (sumCounts wSoloAfter.field : ℚ) / (wSoloAfter.field.length : ℚ) ∧
      ((∀ b ∈ wSoloAfter.field, b.single = true) → 0 < wSoloAfter.field.length →
        wSoloAfter.getUncertainty = 1) :=
  c2_uncertainty_after_collapse false 1 1 wSolo wSoloAfter true [] rfl

/-! ## C3 -/

/-- C3: the claim fails at logical length `n = 64` (any multiple of 64).
`Bitset::Bitset(64, true)` and `reset(true)` shift the last word right by
`Stride - m_size % Stride = 64`; shifting a `uint64_t` by 64 is undefined
behaviour in C++, and under the mathematical shift semantics of this
embedding it zeroes the word.  So after a full fill of a 64-bit set,
every bit reads `false` and `count()` is 0 instead of 64, contradicting
the code's own documentation ("Set all bits to on or off") and the
spec's intent (mask only the tail bits beyond `n`).  Lengths that are
not multiples of 64 behave as claimed (witnessed here by 63 and 65). -/
theorem c3_bitset64_eval :
    (Bitset.make 64 true).count = 0 ∧ (Bitset.make 64 true).get 0 = false ∧
      ((Bitset.make 64 false).reset true).count = 0 ∧
      (Bitset.make 63 true).count = 63 ∧ (Bitset.make 65 true).count = 65 ∧
      (Bitset.make 63 true).get 0 = true ∧ (Bitset.make 65 true).get 64 = true := by
  decide

/-! ## C10 -/

/-- C10: if every cell of the field is already a singleton when `collapse`
is called (in either mode), it returns `true` immediately: the field is
unchanged, the callback log is empty (no observation happened), and the
random generator is untouched (no draw happened; `getCollapsePoint`
collects no cell, so it skips the distribution call).  Only the cached
`m_uncertaintyCurrent` is rewritten to the field size. -/
theorem c10_collapse_solved_noop {T : Type} (oneStep : Bool)
    (fuel stepFuel : Nat) (w : Wave T)
    (h : ∀ b ∈ w.field, b.single = true) :
    Wave.collapse oneStep fuel stepFuel w
      = some (true, { w with uncertaintyCurrent := w.field.length }, []) :=
  collapse_all_single oneStep fuel stepFuel w h

theorem c10_collapse_solved_noop_witness :
    Wave.collapse true 3 3 wSoloAfter
      = some (true, { wSoloAfter with
          uncertaintyCurrent := wSoloAfter.field.length }, []) :=
  c10_collapse_solved_noop true 3 3 wSoloAfter (by decide)

/-! ## C5 -/

/-- `initRandom` ignores the entropy source when the stored seed is
nonzero. -/
theorem initRandom_entropy {T : Type} (mt : Nat → Nat → Nat) (e1 e2 : Nat)
    (w : Wave T) (h : w.seed.rndSeed ≠ 0) :
    w.initRandom mt e1 = w.initRandom mt e2 := by
  unfold Wave.initRandom
  dsimp only
  rw [if_neg h, if_neg h]

/-- C5: with a nonzero `rnd_seed`, two engines initialized from the same
`(pattern, dims, tw, th, rnd_seed)` agree — even across different values
of the nondeterministic entropy source — both on the initial `field()`
and on the whole result of `collapse` (in particular on the collapsed
`field()` contents).  `mt` is the fixed deterministic Mersenne-Twister
seed-to-stream map shared by any two runs of the same implementation. -/
theorem c5_deterministic {T : Type} [DecidableEq T] [Inhabited T]
    (mt : Nat → Nat → Nat) (e1 e2 : Nat) (W H : Nat) (pattern : List T)
    (pw ph tw th rs : Nat) (oneStep : Bool) (fuel stepFuel : Nat)
    (hs : rs ≠ 0) :
    ((Wave.new T W H).initFromPattern mt e1 pattern pw ph tw th rs).field
        = ((Wave.new T W H).initFromPattern mt e2 pattern pw ph tw th rs).field ∧
      Wave.collapse oneStep fuel stepFuel
          ((Wave.new T W H).initFromPattern mt e1 pattern pw ph tw th rs)
        = Wave.collapse oneStep fuel stepFuel
          ((Wave.new T W H).initFromPattern mt e2 pattern pw ph tw th rs) := by
  have hinit : (Wave.new T W H).initFromPattern mt e1 pattern pw ph tw th rs
      = (Wave.new T W H).initFromPattern mt e2 pattern pw ph tw th rs := by
    unfold Wave.initFromPattern
    dsimp only
    congr 1
    exact initRandom_entropy mt e1 e2 _ hs
  rw [hinit]
  exact ⟨rfl, rfl⟩

theorem c5_deterministic_witness :
    (7 : Nat) ≠ 0 ∧
      (((Wave.new Nat 2 1).initFromPattern mt0 11 [0, 1] 2 1 1 1 7).field
          = ((Wave.new Nat 2 1).initFromPattern mt0 22 [0, 1] 2 1 1 1 7).field ∧
        Wave.collapse false 5 5
            ((Wave.new Nat 2 1).initFromPattern mt0 11 [0, 1] 2 1 1 1 7)
          = Wave.collapse false 5 5
            ((Wave.new Nat 2 1).initFromPattern mt0 22 [0, 1] 2 1 1 1 7)) :=
  ⟨by decide,
    c5_deterministic mt0 11 22 2 1 [0, 1] 2 1 1 1 7 false 5 5 (by decide)⟩

/-! ## C9 -/

/-- The 1×1 wave freshly initialized from the pattern `[0, 1]`. -/
def wReinitA : Wave Nat := (Wave.new Nat 1 1).initFromPattern mt0 0 [0, 1] 2 1 1 1 5

/-- The same wave after a full collapse. -/
def wReinitB : Wave Nat :=
  match Wave.collapse false 5 5 wReinitA with
  | some r => r.2.1
  | none => Wave.new Nat 1 1

/-- The collapsed wave re-initialized from the same pattern. -/
def wReinitC : Wave Nat := wReinitB.initFromPattern mt0 0 [0, 1] 2 1 1 1 5

/-- C9, failing input: a second `init` on a collapsed wave.  A fresh init
gives the 1×1 field one all-set bitset (count 2 of 2 tiles), and the
collapse narrows it to a singleton; but re-running `init` leaves the
field exactly as collapsed — count 1, and even the stale logical length 2
although the (duplicated, another re-init defect) tile table now has 4
entries — because `initField` resets the field with
`std::vector::resize`, which never overwrites existing elements.  The
claim (field reset to `W·H` all-set bitsets of length `N` on every init)
is what the spec and the function's purpose require; the code fails it. -/
theorem c9_reinit_eval :
    wReinitA.field.map Bitset.count = [2] ∧
      (Wave.collapse false 5 5 wReinitA).map
          (fun r => r.2.1.field.map Bitset.count) = some [1] ∧
      wReinitC.seed.tiles.length = 4 ∧
      wReinitC.field.map Bitset.count = [1] ∧
      wReinitC.field.map Bitset.size = [2] ∧
      wReinitC.possibleNeighbors.length = 8 := by
  decide

/-! ## C6 -/

theorem resizeList_nil {α : Type} (n : Nat) (v : α) :
    resizeList [] n v = List.replicate n v := by
  unfold resizeList
  cases n <;> simp

/-- The window at the origin covering the whole pattern starts with the
pattern's first element. -/
theorem extractTile_headI {T : Type} [Inhabited T] (pattern : List T)
    (pw ph : Nat) (hpw : 1 ≤ pw) (hph : 1 ≤ ph) (hp : pattern ≠ []) :
    (extractTile pattern pw 0 0 pw ph).headI = pattern.headI := by
  obtain ⟨k, rfl⟩ : ∃ k, ph = k + 1 := ⟨ph - 1, by omega⟩
  obtain ⟨a, p', rfl⟩ : ∃ a p', pattern = a :: p' := by
    cases pattern with
    | nil => exact absurd rfl hp
    | cons a p' => exact ⟨a, p', rfl⟩
  obtain ⟨m, rfl⟩ : ∃ m, pw = m + 1 := ⟨pw - 1, by omega⟩
  unfold extractTile
  rw [List.range_succ_eq_map]
  simp

/-- C6: when the window equals the whole pattern, `init` extracts exactly
one tile of weight 1, whose representative is the pattern's top-left
value; collapsing a field of any dimensions returns `true` immediately
with every cell a singleton holding tile id 0 (so the assembled output is
uniformly that representative), and no callback fires. -/
theorem c6_full_window {T : Type} [DecidableEq T] [Inhabited T]
    (mt : Nat → Nat → Nat) (e : Nat) (W H : Nat) (pattern : List T)
    (pw ph rs : Nat) (oneStep : Bool) (fuel stepFuel : Nat)
    (hpw : 1 ≤ pw) (hph : 1 ≤ ph) (hlen : pw * ph ≤ pattern.length) :
    ((Wave.new T W H).initFromPattern mt e pattern pw ph pw ph rs).seed.tiles
        = [pattern.headI] ∧
      ((Wave.new T W H).initFromPattern mt e pattern pw ph pw ph rs).seed.weights
        = [1] ∧
      (Wave.collapse oneStep fuel stepFuel
          ((Wave.new T W H).initFromPattern mt e pattern pw ph pw ph rs)).map
          (fun r => (r.1, r.2.1.field.map fun c => (c.single, c.first), r.2.2))
        = some (true, List.replicate (W * H) (true, 0), []) := by
  have hone : 0 < pw * ph := Nat.mul_pos hpw hph
  have hpne : pattern ≠ [] := by
    intro hnil
    rw [hnil] at hlen
    simp at hlen
    omega
  have htile := extractTile_headI pattern pw ph hpw hph hpne
  have hfacts :
      ((Wave.new T W H).initFromPattern mt e pattern pw ph pw ph rs).seed.tiles
          = [pattern.headI] ∧
        ((Wave.new T W H).initFromPattern mt e pattern pw ph pw ph rs).seed.weights
          = [1] ∧
        ((Wave.new T W H).initFromPattern mt e pattern pw ph pw ph rs).field
          = List.replicate (W * H) (Bitset.make 1 true) := by
    unfold Wave.initFromPattern
    dsimp only
    have hr1 : List.range 1 = [0] := rfl
    simp only [Nat.sub_self, Nat.zero_add, hr1, List.flatMap_cons, List.flatMap_nil,
      List.map_cons, List.map_nil, List.append_nil, List.foldl_cons, List.foldl_nil]
    simp only [dedupStep, List.findIdx?_nil]
    dsimp only [Wave.new, Wave.initRandom, Wave.initField]
    simp only [List.nil_append, htile, List.length_singleton]
    refine ⟨trivial, trivial, ?_⟩
    exact resizeList_nil _ _
  obtain ⟨ht, hwt, hf⟩ := hfacts
  refine ⟨ht, hwt, ?_⟩
  have hsingle : ∀ b ∈
      ((Wave.new T W H).initFromPattern mt e pattern pw ph pw ph rs).field,
      b.single = true := by
    rw [hf]
    intro b hb
    rw [List.eq_of_mem_replicate hb]
    decide
  rw [collapse_all_single oneStep fuel stepFuel _ hsingle]
  have hcell : ((Bitset.make 1 true).single, (Bitset.make 1 true).first)
      = (true, 0) := by decide
  simp only [Option.map_some']
  rw [hf, List.map_replicate, hcell]

theorem c6_full_window_witness :
    (1 : Nat) ≤ 2 ∧ (1 : Nat) ≤ 2 ∧ 2 * 2 ≤ ([0, 1, 2, 3] : List Nat).length ∧
      (((Wave.new Nat 3 2).initFromPattern mt0 0 [0, 1, 2, 3] 2 2 2 2 9).seed.tiles
          = [([0, 1, 2, 3] : List Nat).headI] ∧
        ((Wave.new Nat 3 2).initFromPattern mt0 0 [0, 1, 2, 3] 2 2 2 2 9).seed.weights
          = [1] ∧
        (Wave.collapse false 4 4
            ((Wave.new Nat 3 2).initFromPattern mt0 0 [0, 1, 2, 3] 2 2 2 2 9)).map
            (fun r => (r.1, r.2.1.field.map fun c => (c.single, c.first), r.2.2))
          = some (true, List.replicate (3 * 2) (true, 0), [])) :=
  ⟨by decide, by decide, by decide,
    c6_full_window mt0 0 3 2 [0, 1, 2, 3] 2 2 9 false 4 4
      (by decide) (by decide) (by decide)⟩

/-! ## Direction and bit-level characterizations -/

theorem revDir_lt {d : Nat} (hd : d < 4) : revDir d < 4 := by
  interval_cases d <;> simp [revDir]

theorem revDir_revDir {d : Nat} (hd : d < 4) : revDir (revDir d) = d := by
  interval_cases d <;> rfl

/-- Number of storage words of a bitset of logical length `n`. -/
def dataLen (n : Nat) : Nat := n / Stride + (if n % Stride > 0 then 1 else 0)

theorem Bitset.data_length_make (n : Nat) (b : Bool) :
    (Bitset.make n b).data.length = dataLen n := by
  unfold Bitset.make maskBack dataLen
  simp

theorem Bitset.size_make (n : Nat) (b : Bool) : (Bitset.make n b).size = n := rfl

theorem Bitset.data_length_set (bs : Bitset) (i : Nat) (b : Bool) :
    (bs.set i b).data.length = bs.data.length := by
  unfold Bitset.set
  dsimp only
  split <;> simp

theorem Bitset.size_set (bs : Bitset) (i : Nat) (b : Bool) :
    (bs.set i b).size = bs.size := by
  unfold Bitset.set
  dsimp only
  split <;> rfl

theorem div_lt_dataLen {n i : Nat} (h : i < n) : i / Stride < dataLen n := by
  unfold dataLen Stride
  by_cases h64 : n % 64 > 0 <;> simp [h64] <;> omega

/-- `(w >> k) & 1 == 1` is exactly `testBit`. -/
theorem and_one_beq_eq_testBit (w k : Nat) :
    ((w >>> k) &&& 1 == 1) = Nat.testBit w k := by
  rw [Nat.and_one_is_mod, Nat.testBit_to_div_mod, Nat.shiftRight_eq_div_pow]
  cases h : w / 2 ^ k % 2 == 1
  · have h2 : ¬ (w / 2 ^ k % 2 = 1) := by simpa using h
    simp [h2]
  · have h2 : w / 2 ^ k % 2 = 1 := by simpa using h
    simp [h2]

theorem Bitset.get_eq_testBit (bs : Bitset) (k : Nat) :
    bs.get k = Nat.testBit (bs.data.getD (k / Stride) 0) (k % Stride) := by
  unfold Bitset.get
  exact and_one_beq_eq_testBit _ _

/-- Reading a bitset after turning one bit on. -/
theorem Bitset.get_set_true (bs : Bitset) {b : Nat} (j : Nat)
    (hb : b / Stride < bs.data.length) :
    (bs.set b true).get j = (decide (j = b) || bs.get j) := by
  show (Bitset.set bs b true).get j = _
  unfold Bitset.set
  dsimp only
  rw [if_pos rfl]
  rw [Bitset.get_eq_testBit, Bitset.get_eq_testBit]
  dsimp only
  by_cases hw : j / Stride = b / Stride
  · rw [hw, getD_set_self hb, Nat.one_shiftLeft, Nat.testBit_or]
    have hjb : (j = b) ↔ (b % Stride = j % Stride) := by
      unfold Stride at hw ⊢
      omega
    rw [Nat.testBit_two_pow]
    rw [decide_eq_decide.mpr hjb]
    exact Bool.or_comm _ _
  · rw [getD_set_ne fun hh => hw hh.symm]
    have : decide (j = b) = false := by
      apply decide_eq_false
      intro hjb
      exact hw (by rw [hjb])
    simp [this]

theorem Neighbors.dir_setDir (nb : Neighbors) (dd d : Nat) (b : Bitset)
    (hd : d < 4) (hdd : dd < 4) :
    (nb.setDir dd b).dir d = if d = dd then b else nb.dir d := by
  interval_cases d <;> interval_cases dd <;>
    simp [Neighbors.setDir, Neighbors.dir]

/-! ## C4: symmetry of the learned adjacency rules -/

/-- `m_seed.neighbors[i][d][j]`: may tile `j` sit in direction `d` of
tile `i`? -/
def readNb (nbs : List Neighbors) (i d j : Nat) : Bool :=
  ((nbs.getD i default).dir d).get j

/-- Well-formedness of a neighbor table over `n` tiles: `n` entries, each
direction bitset carrying `dataLen n` words. -/
def NbsWF (n : Nat) (nbs : List Neighbors) : Prop :=
  nbs.length = n ∧ ∀ nb ∈ nbs, ∀ d < 4, (nb.dir d).data.length = dataLen n

/-- The symmetry invariant of the claim. -/
def NbsSym (n : Nat) (nbs : List Neighbors) : Prop :=
  ∀ i < n, ∀ j < n, ∀ d < 4, readNb nbs i d j = readNb nbs j (revDir d) i

theorem getD_mem {α : Type} {l : List α} {i : Nat} {d : α} (h : i < l.length) :
    l.getD i d ∈ l := by
  rw [List.getD_eq_getElem?_getD, List.getElem?_eq_getElem h]
  exact List.getElem_mem h

/-- Reading after one symmetric half-write
`nbs[a][dd].set(b, true)`. -/
theorem readNb_setOne {n : Nat} (nbs : List Neighbors) (a dd b i d j : Nat)
    (hwf : NbsWF n nbs) (ha : a < n) (hb : b < n) (hdd : dd < 4) (hd : d < 4) :
    readNb (nbs.set a ((nbs.getD a default).setDir dd
        (((nbs.getD a default).dir dd).set b true))) i d j
      = ((decide (i = a) && decide (d = dd) && decide (j = b))
          || readNb nbs i d j) := by
  obtain ⟨hlen, hmem⟩ := hwf
  have hain : a < nbs.length := by rw [hlen]; exact ha
  unfold readNb
  by_cases hia : i = a
  · subst hia
    rw [getD_set_self hain]
    rw [Neighbors.dir_setDir _ _ _ _ hd hdd]
    by_cases hddd : d = dd
    · subst hddd
      rw [if_pos rfl]
      rw [Bitset.get_set_true _ j
        (by rw [hmem _ (getD_mem hain) d hd]; exact div_lt_dataLen hb)]
      simp
    · rw [if_neg hddd]
      simp [hddd]
  · rw [getD_set_ne fun hh => hia hh.symm]
    simp [hia]

/-- `NbsWF` survives one half-write. -/
theorem NbsWF_setOne {n : Nat} (nbs : List Neighbors) (a dd b : Nat)
    (hwf : NbsWF n nbs) (ha : a < n) (hdd : dd < 4) :
    NbsWF n (nbs.set a ((nbs.getD a default).setDir dd
      (((nbs.getD a default).dir dd).set b true))) := by
  obtain ⟨hlen, hmem⟩ := hwf
  have hain : a < nbs.length := by rw [hlen]; exact ha
  refine ⟨by simp [hlen], ?_⟩
  intro nb hnb d hd
  rcases List.mem_or_eq_of_mem_set hnb with hold | hnew
  · exact hmem nb hold d hd
  · subst hnew
    rw [Neighbors.dir_setDir _ _ _ _ hd hdd]
    by_cases hddd : d = dd
    · subst hddd
      rw [if_pos rfl, Bitset.data_length_set]
      exact hmem _ (getD_mem hain) _ hdd
    · rw [if_neg hddd]
      exact hmem _ (getD_mem hain) d hd

/-- Reading after the symmetric double write of `learnPair`. -/
theorem readNb_learnPair {n : Nat} (nbs : List Neighbors) (a dd b i d j : Nat)
    (hwf : NbsWF n nbs) (ha : a < n) (hb : b < n) (hdd : dd < 4) (hd : d < 4) :
    readNb (learnPair nbs a dd b) i d j
      = ((decide (i = b) && decide (d = revDir dd) && decide (j = a))
          || ((decide (i = a) && decide (d = dd) && decide (j = b))
          || readNb nbs i d j)) := by
  unfold learnPair
  rw [readNb_setOne _ b (revDir dd) a i d j
    (NbsWF_setOne nbs a dd b hwf ha hdd) hb ha (revDir_lt hdd) hd]
  rw [readNb_setOne nbs a dd b i d j hwf ha hb hdd hd]

theorem NbsWF_learnPair {n : Nat} (nbs : List Neighbors) (a dd b : Nat)
    (hwf : NbsWF n nbs) (ha : a < n) (hb : b < n) (hdd : dd < 4) :
    NbsWF n (learnPair nbs a dd b) :=
  NbsWF_setOne _ b (revDir dd) a
    (NbsWF_setOne nbs a dd b hwf ha hdd) hb (revDir_lt hdd)

theorem NbsSym_learnPair {n : Nat} (nbs : List Neighbors) (a dd b : Nat)
    (hwf : NbsWF n nbs) (hsym : NbsSym n nbs)
    (ha : a < n) (hb : b < n) (hdd : dd < 4) :
    NbsSym n (learnPair nbs a dd b) := by
  intro i hi j hj d hd
  rw [readNb_learnPair nbs a dd b i d j hwf ha hb hdd hd,
    readNb_learnPair nbs a dd b j (revDir d) i hwf ha hb hdd (revDir_lt hd),
    hsym i hi j hj d hd]
  have h1 : (d = revDir dd) ↔ (revDir d = dd) := by
    constructor
    · intro he; rw [he, revDir_revDir hdd]
    · intro he; rw [← he, revDir_revDir hd]
  have h2 : (d = dd) ↔ (revDir d = revDir dd) := by
    constructor
    · intro he; rw [he]
    · intro he
      have := congrArg revDir he
      rwa [revDir_revDir hd, revDir_revDir hdd] at this
  apply Bool.eq_iff_iff.mpr
  simp only [Bool.or_eq_true, Bool.and_eq_true, decide_eq_true_eq]
  constructor
  · rintro (⟨⟨hx, hy⟩, hz⟩ | ⟨⟨hx, hy⟩, hz⟩ | hx)
    · exact Or.inr (Or.inl ⟨⟨hz, h1.mp hy⟩, hx⟩)
    · exact Or.inl ⟨⟨hz, h2.mp hy⟩, hx⟩
    · exact Or.inr (Or.inr hx)
  · rintro (⟨⟨hx, hy⟩, hz⟩ | ⟨⟨hx, hy⟩, hz⟩ | hx)
    · exact Or.inr (Or.inl ⟨⟨hz, h2.mpr hy⟩, hx⟩)
    · exact Or.inl ⟨⟨hz, h1.mpr hy⟩, hx⟩
    · exact Or.inr (Or.inr hx)

theorem dedupStep_length {T : Type} [DecidableEq T] [Inhabited T]
    (st : List (List T) × List T × List Nat) (tile : List T)
    (h : st.2.1.length = st.1.length) :
    (dedupStep st tile).2.1.length = (dedupStep st tile).1.length := by
  obtain ⟨blocks, tiles, weights⟩ := st
  unfold dedupStep
  dsimp only
  cases blocks.findIdx? (fun b => decide (b = tile)) <;> simp_all

theorem getD_zero {l : List Nat} (h : ∀ x ∈ l, x = 0) (i : Nat) :
    l.getD i 0 = 0 := by
  rw [List.getD_eq_getElem?_getD]
  cases he : l[i]? with
  | none => rfl
  | some x => simpa using h x (List.getElem?_mem he)

theorem Bitset.data_make_false_zero (n : Nat) :
    ∀ x ∈ (Bitset.make n false).data, x = 0 := by
  unfold Bitset.make maskBack
  dsimp only
  simp only [show (if (false : Bool) = true then wordMax else 0) = 0 from rfl]
  intro x hx
  rcases List.mem_or_eq_of_mem_set hx with hx | rfl
  · exact List.eq_of_mem_replicate hx
  · rw [getD_zero (fun x hx => List.eq_of_mem_replicate hx)]
    exact Nat.zero_shiftRight _

theorem Bitset.get_make_false (n j : Nat) : (Bitset.make n false).get j = false := by
  rw [Bitset.get_eq_testBit, getD_zero (Bitset.data_make_false_zero n)]
  exact Nat.zero_testBit _

theorem Neighbors.dir_make (n d : Nat) :
    (Neighbors.make n).dir d = Bitset.make n false := by
  unfold Neighbors.dir Neighbors.make
  split <;> rfl

/-- The table the learner starts from — all-false rules of the right
shape — is well-formed and symmetric. -/
theorem nbs0_inv (n : Nat) :
    NbsWF n (resizeList [] n (Neighbors.make n)) ∧
      NbsSym n (resizeList [] n (Neighbors.make n)) := by
  rw [resizeList_nil]
  constructor
  · refine ⟨by simp, ?_⟩
    intro nb hnb d hd
    rw [List.eq_of_mem_replicate hnb, Neighbors.dir_make, Bitset.data_length_make]
  · intro i hi j hj d hd
    unfold readNb
    rw [List.getD_eq_getElem?_getD, List.getElem?_replicate_of_lt hi,
      List.getD_eq_getElem?_getD, List.getElem?_replicate_of_lt hj]
    dsimp only [Option.getD_some]
    rw [Neighbors.dir_make, Neighbors.dir_make, Bitset.get_make_false,
      Bitset.get_make_false]

/-- The learning loop preserves well-formedness and symmetry. -/
theorem learnNeighbors_inv {T : Type} [DecidableEq T]
    (blocks : List (List T)) (tw th : Nat) (nbs0 : List Neighbors)
    (h0 : NbsWF blocks.length nbs0 ∧ NbsSym blocks.length nbs0) :
    NbsWF blocks.length (learnNeighbors blocks tw th nbs0) ∧
      NbsSym blocks.length (learnNeighbors blocks tw th nbs0) := by
  unfold learnNeighbors
  dsimp only
  refine foldl_preserve
    (fun nbs => NbsWF blocks.length nbs ∧ NbsSym blocks.length nbs)
    _ _ ?_ h0
  intro nbs i hi hP
  refine foldl_preserve
    (fun nbs => NbsWF blocks.length nbs ∧ NbsSym blocks.length nbs)
    _ _ ?_ hP
  intro nbs dir hdir hP2
  refine foldl_preserve
    (fun nbs => NbsWF blocks.length nbs ∧ NbsSym blocks.length nbs)
    _ _ ?_ hP2
  intro nbs j hj hP3
  have hi4 : i < blocks.length := List.mem_range.mp hi
  have hdir4 : dir < 4 := List.mem_range.mp hdir
  have hj4 : j < blocks.length := by
    obtain ⟨x, hx, rfl⟩ := List.mem_map.mp hj
    have := List.mem_range.mp hx
    omega
  split
  · exact ⟨NbsWF_learnPair nbs i dir j hP3.1 hi4 hj4 hdir4,
      NbsSym_learnPair nbs i dir j hP3.1 hP3.2 hi4 hj4 hdir4⟩
  · exact hP3

/-- The tile table and the block table of the extraction fold grow in
lock step. -/
theorem dedup_fold_length {T : Type} [DecidableEq T] [Inhabited T]
    (pattern : List T) (pw tw th : Nat) (origins : List (Nat × Nat)) :
    (origins.foldl (fun st xy => dedupStep st (extractTile pattern pw xy.1 xy.2 tw th))
      (([], [], []) : List (List T) × List T × List Nat)).2.1.length
    = (origins.foldl (fun st xy => dedupStep st (extractTile pattern pw xy.1 xy.2 tw th))
      (([], [], []) : List (List T) × List T × List Nat)).1.length := by
  refine foldl_preserve
    (fun st : List (List T) × List T × List Nat => st.2.1.length = st.1.length)
    _ _ ?_ rfl
  intro st xy _ h
  exact dedupStep_length st _ h

/-- C4: after `init` from a pattern on a fresh wave, the learned rules
are symmetric across reversed directions: `R[i][d][j] = R[j][rev d][i]`
for all tile ids `i, j` and directions `d`. -/
theorem c4_neighbors_symmetric {T : Type} [DecidableEq T] [Inhabited T]
    (mt : Nat → Nat → Nat) (e : Nat) (W H : Nat) (pattern : List T)
    (pw ph tw th rs : Nat) (i j d : Nat) (hd : d < 4)
    (hi : i < ((Wave.new T W H).initFromPattern mt e pattern pw ph tw th rs).seed.tiles.length)
    (hj : j < ((Wave.new T W H).initFromPattern mt e pattern pw ph tw th rs).seed.tiles.length) :
    readNb ((Wave.new T W H).initFromPattern mt e pattern pw ph tw th rs).seed.neighbors i d j
      = readNb ((Wave.new T W H).initFromPattern mt e pattern pw ph tw th rs).seed.neighbors
          j (revDir d) i := by
  unfold Wave.initFromPattern at hi hj ⊢
  dsimp only [Wave.new, Wave.initRandom, Wave.initField] at hi hj ⊢
  rw [dedup_fold_length pattern pw tw th _] at hi hj
  exact (learnNeighbors_inv _ tw th _ (nbs0_inv _)).2 i hi j hj d hd

theorem c4_neighbors_symmetric_witness :
    readNb ((Wave.new Nat 2 1).initFromPattern mt0 0 [0, 1] 2 1 1 1 7).seed.neighbors
        0 0 1
      = readNb ((Wave.new Nat 2 1).initFromPattern mt0 0 [0, 1] 2 1 1 1 7).seed.neighbors
          1 (revDir 0) 0 :=
  c4_neighbors_symmetric mt0 0 2 1 [0, 1] 2 1 1 1 7 0 1 0
    (by decide) (by decide) (by decide)

/-! ## C7: minimal-entropy cell selection -/

/-- Invariant of the `getCollapsePoint` scan after the first `t` cells:
either no cell so far had more than one candidate (nothing collected, the
running minimum still at the tile count), or the collected list is
exactly the cells of minimal count `> 1` so far, in index order. -/
def gcpInv {T : Type} (w : Wave T) (t : Nat) (acc : List Nat × Nat × Nat) : Prop :=
  ((∀ i < t, cntAt w i ≤ 1) ∧ acc.1 = [] ∧ acc.2.1 = w.seed.tiles.length) ∨
    ((∃ i, i < t ∧ 1 < cntAt w i) ∧ 1 < acc.2.1 ∧
      (∃ i, i < t ∧ cntAt w i = acc.2.1) ∧
      (∀ i < t, 1 < cntAt w i → acc.2.1 ≤ cntAt w i) ∧
      acc.1 = (List.range t).filter (fun i => decide (cntAt w i = acc.2.1)))

theorem gcpStep_eq {T : Type} (w : Wave T) (u : List Nat) (m tot i : Nat) :
    gcpStep w (u, m, tot) i
      = if 1 < cntAt w i ∧ cntAt w i ≤ m then
          (if cntAt w i = m then u ++ [i] else [i], cntAt w i, tot + cntAt w i)
        else (u, m, tot + cntAt w i) := rfl

theorem filter_range_succ (p : Nat → Bool) (t : Nat) :
    (List.range (t + 1)).filter p
      = (List.range t).filter p ++ if p t then [t] else [] := by
  rw [List.range_succ, List.filter_append]
  congr 1
  cases hpt : p t <;> simp [List.filter, hpt]

theorem gcp_fold_spec {T : Type} (w : Wave T)
    (hle : ∀ i < w.field.length, cntAt w i ≤ w.seed.tiles.length) :
    ∀ t, t ≤ w.field.length →
      gcpInv w t ((List.range t).foldl (gcpStep w)
        ([], w.seed.tiles.length, 0)) := by
  intro t
  induction t with
  | zero =>
    intro _
    exact Or.inl ⟨by omega, rfl, rfl⟩
  | succ t ih =>
    intro ht
    have IH := ih (by omega)
    rw [List.range_succ, List.foldl_append, List.foldl_cons, List.foldl_nil]
    rcases hacc : (List.range t).foldl (gcpStep w)
        ([], w.seed.tiles.length, 0) with ⟨u, m, tot⟩
    rw [hacc] at IH
    rw [gcpStep_eq]
    have hct : cntAt w t ≤ w.seed.tiles.length := hle t (by omega)
    by_cases h1 : 1 < cntAt w t
    · rcases IH with ⟨hall, hu, hm⟩ | ⟨hex, hm1, hexm, hmin, hu⟩
      · -- first cell with more than one candidate
        dsimp only at hu hm
        subst hu hm
        rw [if_pos ⟨h1, hct⟩]
        right
        refine ⟨⟨t, by omega, h1⟩, h1, ⟨t, by omega, rfl⟩, ?_, ?_⟩
        · intro i hi hi1
          rcases Nat.lt_succ_iff_lt_or_eq.mp hi with hi | rfl
          · exact absurd hi1 (by have := hall i hi; omega)
          · exact Nat.le_refl _
        · dsimp only
          have hnone : (List.range t).filter
              (fun i => decide (cntAt w i = cntAt w t)) = [] := by
            apply List.filter_eq_nil_iff.mpr
            intro i hi
            have := hall i (List.mem_range.mp hi)
            simp only [decide_eq_true_eq]
            omega
          rw [filter_range_succ, hnone, if_pos (decide_eq_true rfl), List.nil_append]
          split <;> rfl
      · dsimp only at hex hm1 hexm hmin hu
        by_cases hlem : cntAt w t ≤ m
        · rw [if_pos ⟨h1, hlem⟩]
          by_cases heq : cntAt w t = m
          · -- a further cell of the current minimal count: appended
            rw [if_pos heq]
            right
            dsimp only
            refine ⟨⟨t, by omega, h1⟩, by omega, ⟨t, by omega, rfl⟩, ?_, ?_⟩
            · intro i hi hi1
              rcases Nat.lt_succ_iff_lt_or_eq.mp hi with hi | rfl
              · have := hmin i hi hi1
                omega
              · exact Nat.le_refl _
            · rw [filter_range_succ, heq, hu, if_pos (decide_eq_true rfl)]
          · -- a strictly smaller count: restart the collection
            rw [if_neg heq]
            right
            dsimp only
            refine ⟨⟨t, by omega, h1⟩, h1, ⟨t, by omega, rfl⟩, ?_, ?_⟩
            · intro i hi hi1
              rcases Nat.lt_succ_iff_lt_or_eq.mp hi with hi | rfl
              · have := hmin i hi hi1
                omega
              · exact Nat.le_refl _
            · have hnone : (List.range t).filter
                  (fun i => decide (cntAt w i = cntAt w t)) = [] := by
                apply List.filter_eq_nil_iff.mpr
                intro i hi
                simp only [decide_eq_true_eq]
                intro hc
                have hi1 : 1 < cntAt w i := by omega
                have := hmin i (List.mem_range.mp hi) hi1
                omega
              rw [filter_range_succ, hnone, if_pos (decide_eq_true rfl), List.nil_append]
        · -- count above the current minimum: skipped
          rw [if_neg (by tauto)]
          right
          dsimp only
          obtain ⟨i0, hi0, hc0⟩ := hex
          obtain ⟨i1, hi1, hc1⟩ := hexm
          refine ⟨⟨i0, by omega, hc0⟩, hm1, ⟨i1, by omega, hc1⟩, ?_, ?_⟩
          · intro i hi hi1
            rcases Nat.lt_succ_iff_lt_or_eq.mp hi with hi | rfl
            · exact hmin i hi hi1
            · omega
          · rw [filter_range_succ, hu, if_neg (by simp only [decide_eq_true_eq]; omega),
              List.append_nil]
    · -- at most one candidate in this cell: skipped
      rw [if_neg (by tauto)]
      rcases IH with ⟨hall, hu, hm⟩ | ⟨hex, hm1, hexm, hmin, hu⟩
      · left
        dsimp only at hu hm ⊢
        refine ⟨?_, hu, hm⟩
        intro i hi
        rcases Nat.lt_succ_iff_lt_or_eq.mp hi with hi | rfl
        · exact hall i hi
        · omega
      · right
        dsimp only at hex hm1 hexm hmin hu ⊢
        obtain ⟨i0, hi0, hc0⟩ := hex
        obtain ⟨i1, hi1, hc1⟩ := hexm
        refine ⟨⟨i0, by omega, hc0⟩, hm1, ⟨i1, by omega, hc1⟩, ?_, ?_⟩
        · intro i hi hi1
          rcases Nat.lt_succ_iff_lt_or_eq.mp hi with hi | rfl
          · exact hmin i hi hi1
          · omega
        · rw [filter_range_succ, hu, if_neg (by simp only [decide_eq_true_eq]; omega),
            List.append_nil]

/-- C7: in any state with at least one cell of candidate count `> 1`
(and counts bounded by the tile count, as in every reachable state),
`getCollapsePoint` picks a cell of the minimum count `m` among cells with
count `> 1`; the collection scanned is exactly the cells whose count
equals `m` (in index order), the returned cell is the one selected by the
uniform draw over that collection, and every position of the collection
is reachable by some draw — ties are broken by the draw, not by position. -/
theorem c7_getCollapsePoint_spec {T : Type} (w : Wave T)
    (hle : ∀ i < w.field.length, cntAt w i ≤ w.seed.tiles.length)
    (hex : ∃ i, i < w.field.length ∧ 1 < cntAt w i) :
    ∃ m, 1 < m ∧
      (∃ i, i < w.field.length ∧ cntAt w i = m) ∧
      (∀ i < w.field.length, 1 < cntAt w i → m ≤ cntAt w i) ∧
      w.getCollapsePoint.1
        = (ties w m).getD (w.rng.stream w.rng.pos % (ties w m).length) 0 ∧
      ∀ k < (ties w m).length,
        (Wave.getCollapsePoint { w with rng := ⟨fun _ => k, 0⟩ }).1
          = (ties w m).getD k 0 := by
  have hinv := gcp_fold_spec w hle w.field.length (Nat.le_refl _)
  rcases hacc : (List.range w.field.length).foldl (gcpStep w)
      ([], w.seed.tiles.length, 0) with ⟨u, m, tot⟩
  rw [hacc] at hinv
  rcases hinv with ⟨hall, _, _⟩ | ⟨_, hm1, hexm, hmin, hu⟩
  · obtain ⟨i, hi, h1⟩ := hex
    exact absurd h1 (by have := hall i hi; omega)
  · dsimp only at hm1 hexm hmin hu
    have hties : ties w m = u := hu.symm
    have hne : u ≠ [] := by
      obtain ⟨i, hi, hci⟩ := hexm
      intro hnil
      have hmem : i ∈ (List.range w.field.length).filter
          (fun i => decide (cntAt w i = m)) :=
        List.mem_filter.mpr ⟨List.mem_range.mpr hi, by simp [hci]⟩
      rw [← hu, hnil] at hmem
      exact absurd hmem (List.not_mem_nil i)
    have hlen1 : u.length - 1 + 1 = u.length := by
      have := List.length_pos.mpr hne
      omega
    have hemp : u.isEmpty = false := List.isEmpty_eq_false.mpr hne
    refine ⟨m, hm1, hexm, hmin, ?_, ?_⟩
    · unfold Wave.getCollapsePoint
      dsimp only
      rw [hacc]
      dsimp only
      rw [hemp]
      dsimp only [Bool.false_eq_true, if_false, Rng.draw]
      rw [hties, hlen1]
      simp
    · intro k hk
      have hacc2 : (List.range
            (({ w with rng := ⟨fun _ => k, 0⟩ } : Wave T)).field.length).foldl
          (gcpStep ({ w with rng := ⟨fun _ => k, 0⟩ } : Wave T))
          ([], (({ w with rng := ⟨fun _ => k, 0⟩ } : Wave T)).seed.tiles.length, 0)
          = (u, m, tot) := hacc
      unfold Wave.getCollapsePoint
      dsimp only
      rw [hacc2]
      dsimp only
      rw [hemp]
      dsimp only [Bool.false_eq_true, if_false, Rng.draw]
      rw [hties, hlen1]
      rw [hties] at hk
      simp [Nat.mod_eq_of_lt hk]

theorem c7_getCollapsePoint_spec_witness :
    ∃ m, 1 < m ∧
      (∃ i, i < wNoRules.field.length ∧ cntAt wNoRules i = m) ∧
      (∀ i < wNoRules.field.length, 1 < cntAt wNoRules i → m ≤ cntAt wNoRules i) ∧
      wNoRules.getCollapsePoint.1
        = (ties wNoRules m).getD
            (wNoRules.rng.stream wNoRules.rng.pos % (ties wNoRules m).length) 0 ∧
      ∀ k < (ties wNoRules m).length,
        (Wave.getCollapsePoint { wNoRules with rng := ⟨fun _ => k, 0⟩ }).1
          = (ties wNoRules m).getD k 0 :=
  c7_getCollapsePoint_spec wNoRules (by decide) ⟨0, by decide, by decide⟩

/-! ## C8: callback invocations during one observation step -/

/-- Shape of a bitset over `n` tiles: logical length `n`, `dataLen n`
storage words. -/
def bsWF (n : Nat) (b : Bitset) : Prop :=
  b.size = n ∧ b.data.length = dataLen n

instance (n : Nat) (b : Bitset) : Decidable (bsWF n b) := by
  unfold bsWF
  infer_instance

/-- Well-formedness of an engine state: the shape every state reachable
through `init` has (nonempty tile table, field of `W·H` cells, each
bitset sized to the tile count, four scratch bitsets, one `Neighbors`
record per tile). -/
def WaveWF {T : Type} (w : Wave T) : Prop :=
  0 < w.seed.tiles.length ∧
  0 < w.fieldW ∧
  w.field.length = w.fieldW * w.fieldH ∧
  w.seed.neighbors.length = w.seed.tiles.length ∧
  4 ≤ w.possibleNeighbors.length ∧
  (∀ b ∈ w.field, bsWF w.seed.tiles.length b) ∧
  (∀ d < 4, bsWF w.seed.tiles.length (w.possibleNeighbors.getD d default)) ∧
  (∀ nb ∈ w.seed.neighbors, ∀ d < 4, bsWF w.seed.tiles.length (nb.dir d)) ∧
  bsWF w.seed.tiles.length w.allTiles

instance {T : Type} (w : Wave T) : Decidable (WaveWF w) := by
  unfold WaveWF
  infer_instance

theorem bsWF_reset {n : Nat} {b : Bitset} (h : bsWF n b) (x : Bool) :
    bsWF n (b.reset x) := by
  obtain ⟨hs, hl⟩ := h
  unfold Bitset.reset maskBack
  exact ⟨hs, by simpa using hl⟩

theorem bsWF_set {n : Nat} {b : Bitset} (h : bsWF n b) (i : Nat) (x : Bool) :
    bsWF n (b.set i x) := by
  obtain ⟨hs, hl⟩ := h
  exact ⟨by rw [Bitset.size_set, hs], by rw [Bitset.data_length_set, hl]⟩

theorem bsWF_intersect {n : Nat} {a b : Bitset}
    (ha : bsWF n a) (hb : bsWF n b) : bsWF n (a.intersect b) := by
  obtain ⟨has, hal⟩ := ha
  obtain ⟨hbs, hbl⟩ := hb
  unfold Bitset.intersect
  refine ⟨has, ?_⟩
  rw [List.length_zipWith, hal, hbl, Nat.min_self]

theorem bsWF_add {n : Nat} {a b : Bitset}
    (ha : bsWF n a) (hb : bsWF n b) : bsWF n (a.add b) := by
  obtain ⟨has, hal⟩ := ha
  obtain ⟨hbs, hbl⟩ := hb
  unfold Bitset.add
  refine ⟨has, ?_⟩
  rw [List.length_zipWith, hal, hbl, Nat.min_self]

theorem fieldIndex_lt {W H x y : Nat} (hx : x < W) (hy : y < H) :
    y * W + x < W * H := by
  calc y * W + x < y * W + W := by omega
    _ = (y + 1) * W := by ring
    _ ≤ H * W := Nat.mul_le_mul_right W hy
    _ = W * H := Nat.mul_comm H W

theorem coord_x_lt {T : Type} (w : Wave T) (id : Nat) (hW : 0 < w.fieldW) :
    id % w.fieldW < w.fieldW := Nat.mod_lt _ hW

theorem coord_y_lt {T : Type} (w : Wave T) (id : Nat) (hW : 0 < w.fieldW)
    (hid : id < w.fieldW * w.fieldH) : id / w.fieldW < w.fieldH := by
  rw [Nat.div_lt_iff_lt_mul hW]
  calc id < w.fieldW * w.fieldH := hid
    _ = w.fieldH * w.fieldW := Nat.mul_comm _ _

/-- The neighbor lookup produces a bitset of the canonical shape. -/
theorem getNeighbor_WF {T : Type} {w : Wave T} (id dir : Nat)
    (hW : 0 < w.fieldW)
    (hWH : w.field.length = w.fieldW * w.fieldH)
    (hfield : ∀ b ∈ w.field, bsWF w.seed.tiles.length b)
    (hall : bsWF w.seed.tiles.length w.allTiles)
    (hid : id < w.field.length) :
    bsWF w.seed.tiles.length
      (w.getNeighbor (id % w.fieldW) (id / w.fieldW) dir) := by
  have hx := coord_x_lt w id hW
  have hy := coord_y_lt w id hW (hWH ▸ hid)
  have hcell : ∀ x y, x < w.fieldW → y < w.fieldH →
      bsWF w.seed.tiles.length (w.field.getD (y * w.fieldW + x) default) := by
    intro x y hx hy
    apply hfield
    apply getD_mem
    rw [hWH]
    exact fieldIndex_lt hx hy
  unfold Wave.getNeighbor Wave.fieldIndex
  generalize id % w.fieldW = xv at hx ⊢
  generalize id / w.fieldW = yv at hy ⊢
  split
  · split
    · exact hcell _ _ hx (by omega)
    · exact hall
  · split
    · split
      · exact hcell _ _ hx (by omega)
      · exact hall
    · split
      · split
        · exact hcell _ _ (by omega) hy
        · exact hall
      · split
        · split
          · exact hcell _ _ (by omega) hy
          · exact hall
        · exact hall

theorem filterCandidates_fieldW {T : Type} (w : Wave T) (id : Nat) :
    (w.filterCandidates id).fieldW = w.fieldW := rfl

theorem filterCandidates_fieldH {T : Type} (w : Wave T) (id : Nat) :
    (w.filterCandidates id).fieldH = w.fieldH := rfl

theorem filterCandidates_seed {T : Type} (w : Wave T) (id : Nat) :
    (w.filterCandidates id).seed = w.seed := rfl

theorem filterCandidates_field_length {T : Type} (w : Wave T) (id : Nat) :
    (w.filterCandidates id).field.length = w.field.length := by
  unfold Wave.filterCandidates
  simp

/-- The per-direction filter step keeps the accumulator in canonical
shape. -/
theorem fcStep_WF {T : Type} {w : Wave T} (id : Nat)
    (hW : 0 < w.fieldW)
    (hWH : w.field.length = w.fieldW * w.fieldH)
    (hnlen : w.seed.neighbors.length = w.seed.tiles.length)
    (hfield : ∀ b ∈ w.field, bsWF w.seed.tiles.length b)
    (hnbs : ∀ nb ∈ w.seed.neighbors, ∀ d < 4, bsWF w.seed.tiles.length (nb.dir d))
    (hall : bsWF w.seed.tiles.length w.allTiles)
    (hid : id < w.field.length)
    (acc : Bitset × List Bitset) (dir : Nat) (hdir : dir < 4)
    (hacc1 : bsWF w.seed.tiles.length acc.1)
    (hacc2 : ∀ d < 4, bsWF w.seed.tiles.length (acc.2.getD d default))
    (hacc3 : acc.2.length = w.possibleNeighbors.length)
    (hplen : 4 ≤ w.possibleNeighbors.length) :
    bsWF w.seed.tiles.length (fcStep w id acc dir).1 ∧
      (∀ d < 4, bsWF w.seed.tiles.length ((fcStep w id acc dir).2.getD d default)) ∧
      (fcStep w id acc dir).2.length = w.possibleNeighbors.length := by
  obtain ⟨cand, pns⟩ := acc
  have hnWF : bsWF w.seed.tiles.length
      (w.getNeighbor (id % w.fieldW) (id / w.fieldW) dir) :=
    getNeighbor_WF id dir hW hWH hfield hall hid
  unfold fcStep
  dsimp only at hacc1 hacc2 hacc3 ⊢
  have hpn0 : bsWF w.seed.tiles.length ((pns.getD dir default).reset false) :=
    bsWF_reset (hacc2 dir hdir) false
  have hpnWF : bsWF w.seed.tiles.length ((List.range
      (w.getNeighbor (id % w.fieldW) (id / w.fieldW) dir).size).foldl
      (fun pn i =>
        if (w.getNeighbor (id % w.fieldW) (id / w.fieldW) dir).get i then
          pn.add ((w.seed.neighbors.getD i default).dir (revDir dir))
        else pn)
      ((pns.getD dir default).reset false)) := by
    refine foldl_preserve (bsWF w.seed.tiles.length) _ _ ?_ hpn0
    intro pn i hi hpn
    have hiN : i < w.seed.tiles.length := by
      have := List.mem_range.mp hi
      rw [hnWF.1] at this
      exact this
    split
    · refine bsWF_add hpn (hnbs _ (getD_mem ?_) _ (revDir_lt hdir))
      rw [hnlen]
      exact hiN
    · exact hpn
  refine ⟨bsWF_intersect hacc1 hpnWF, ?_, by simpa using hacc3⟩
  intro d hd4
  by_cases hdd : d = dir
  · subst hdd
    rw [getD_set_self (by omega)]
    exact hpnWF
  · rw [getD_set_ne fun hh => hdd hh.symm]
    exact hacc2 d hd4

/-- The candidate filter keeps every field cell and every scratch bitset
in canonical shape. -/
theorem filterCandidates_WF {T : Type} {w : Wave T} (id : Nat)
    (hwf : WaveWF w) (hid : id < w.field.length) :
    WaveWF (w.filterCandidates id) ∧
      bsWF w.seed.tiles.length
        ((w.filterCandidates id).field.getD id default) := by
  obtain ⟨hN, hW, hWH, hnlen, hplen, hfield, hpns, hnbs, hall⟩ := hwf
  have hcell0 : bsWF w.seed.tiles.length (w.field.getD id default) :=
    hfield _ (getD_mem hid)
  unfold Wave.filterCandidates
  dsimp only
  have hcand0WF : bsWF w.seed.tiles.length
      (if (w.field.getD id default).empty then
        (w.field.getD id default).reset true
      else w.field.getD id default) := by
    split
    · exact bsWF_reset hcell0 true
    · exact hcell0
  have hfold := foldl_preserve
    (fun acc : Bitset × List Bitset => bsWF w.seed.tiles.length acc.1 ∧
      (∀ d < 4, bsWF w.seed.tiles.length (acc.2.getD d default)) ∧
      acc.2.length = w.possibleNeighbors.length)
    [0, 1, 2, 3]
    (if (w.field.getD id default).empty then
        (w.field.getD id default).reset true
      else w.field.getD id default, w.possibleNeighbors)
    (by
      rintro acc dir hdirmem ⟨hacc1, hacc2, hacc3⟩
      have hdir4 : dir < 4 := by
        simp only [List.mem_cons, List.not_mem_nil, or_false] at hdirmem
        omega
      exact fcStep_WF id hW hWH hnlen hfield hnbs hall hid acc dir hdir4
        hacc1 hacc2 hacc3 hplen)
    ⟨hcand0WF, hpns, rfl⟩
  rcases hres : [0, 1, 2, 3].foldl (fcStep w id)
      (if (w.field.getD id default).empty then
        (w.field.getD id default).reset true
      else w.field.getD id default, w.possibleNeighbors)
    with ⟨cand, pns⟩
  rw [hres] at hfold
  obtain ⟨hcandWF, hpnsWF, hpnsLen⟩ := hfold
  dsimp only at hcandWF hpnsWF hpnsLen
  have hcand2WF : bsWF w.seed.tiles.length
      (if cand.empty then
        (List.range 4).foldl (fun c i => c.add (pns.getD i default)) cand
      else cand) := by
    split
    · refine foldl_preserve (bsWF w.seed.tiles.length) _ _ ?_ hcandWF
      intro c i hi hc
      exact bsWF_add hc (hpnsWF i (List.mem_range.mp hi))
    · exact hcandWF
  constructor
  · refine ⟨hN, hW, by simpa using hWH, hnlen, by dsimp only; omega, ?_, ?_,
      hnbs, hall⟩
    · intro b hb
      rcases List.mem_or_eq_of_mem_set hb with hb | rfl
      · exact hfield b hb
      · exact hcand2WF
    · intro d hd
      exact hpnsWF d hd
  · show bsWF w.seed.tiles.length ((w.field.set id _).getD id default)
    rw [getD_set_self (by simpa using hid)]
    exact hcand2WF

theorem getD_of_length_le {α : Type} {l : List α} {i : Nat} {d : α}
    (h : l.length ≤ i) : l.getD i d = d := by
  rw [List.getD_eq_getElem?_getD, List.getElem?_eq_none h]
  rfl

theorem Bitset.reset_false_data_zero (b : Bitset) :
    ∀ x ∈ (b.reset false).data, x = 0 := by
  unfold Bitset.reset maskBack
  dsimp only
  intro x hx
  rcases List.mem_or_eq_of_mem_set hx with hx | rfl
  · obtain ⟨y, _, rfl⟩ := List.mem_map.mp hx
    rfl
  · rw [getD_zero (fun x hx => by obtain ⟨y, _, rfl⟩ := List.mem_map.mp hx; rfl)]
    exact Nat.zero_shiftRight _

theorem two_pow_and_pred (b : Nat) : 2 ^ b &&& (2 ^ b - 1) = 0 := by
  apply Nat.eq_of_testBit_eq
  intro i
  rw [Nat.testBit_and, Nat.zero_testBit, Nat.testBit_two_pow,
    Nat.testBit_two_pow_sub_one]
  by_cases hib : b = i
  · subst hib
    simp
  · simp [hib]

theorem singleGo_set_word {l : List Nat} {k : Nat} {v : Nat}
    (hzero : ∀ x ∈ l, x = 0) (hk : k < l.length)
    (hv : v ≠ 0) (hv2 : v &&& (v - 1) = 0) :
    singleGo (l.set k v) false = true := by
  induction l generalizing k with
  | nil => simp at hk
  | cons a t ih =>
    have ha : a = 0 := hzero a (by simp)
    cases k with
    | zero =>
      rw [List.set_cons_zero]
      unfold singleGo
      rw [if_neg hv]
      rw [if_neg (by simp [hv2])]
      exact singleGo_allzero (fun x hx => hzero x (by simp [hx])) true
    | succ k =>
      rw [List.set_cons_succ]
      unfold singleGo
      rw [if_pos ha]
      exact ih (fun x hx => hzero x (by simp [hx])) (by simpa using hk)

/-- After observation, the observed cell holds exactly one tile. -/
theorem collapseCell_single {T : Type} {w : Wave T} (id : Nat)
    (hwf : WaveWF w) (hid : id < w.field.length) :
    ((w.collapseCell id).field.getD id default).single = true := by
  obtain ⟨hWF1, hcellWF⟩ := filterCandidates_WF id hwf hid
  have hN : 0 < w.seed.tiles.length := hwf.1
  have hid1 : id < (w.filterCandidates id).field.length := by
    rw [filterCandidates_field_length]
    exact hid
  unfold Wave.collapseCell
  dsimp only
  rw [getD_set_self hid1]
  set w1 := w.filterCandidates id with hw1
  set cell := w1.field.getD id default with hcell
  set pool : List Nat := if cell.empty then
      (List.range w1.seed.tiles.length).flatMap fun i =>
        List.replicate (w1.seed.weights.getD i 0) i
    else
      (List.range cell.size).flatMap fun i =>
        if cell.get i then List.replicate (w1.seed.weights.getD i 0) i else []
    with hpool
  have hseed1 : w1.seed = w.seed := filterCandidates_seed w id
  have hpool_lt : ∀ t ∈ pool, t < w.seed.tiles.length := by
    intro t ht
    rw [hpool] at ht
    split at ht
    · obtain ⟨i, hi, hrep⟩ := List.mem_flatMap.mp ht
      rw [List.eq_of_mem_replicate hrep]
      have := List.mem_range.mp hi
      rw [hseed1] at this
      exact this
    · obtain ⟨i, hi, hrep⟩ := List.mem_flatMap.mp ht
      have hrange := List.mem_range.mp hi
      split at hrep
      · rw [List.eq_of_mem_replicate hrep]
        rw [← hcellWF.1]
        exact hrange
      · simp at hrep
  have hstart : pool.getD (w1.rng.draw (pool.length - 1)).1 0
      < w.seed.tiles.length := by
    by_cases hlt : (w1.rng.draw (pool.length - 1)).1 < pool.length
    · exact hpool_lt _ (getD_mem hlt)
    · rw [getD_of_length_le (by omega)]
      exact hN
  apply singleGo_set_word (Bitset.reset_false_data_zero cell)
  · show pool.getD (w1.rng.draw (pool.length - 1)).1 0 / Stride
      < (cell.reset false).data.length
    have : (cell.reset false).data.length = dataLen w.seed.tiles.length := by
      have := bsWF_reset hcellWF false
      exact this.2
    rw [this]
    exact div_lt_dataLen hstart
  · show (cell.reset false).data.getD _ 0 ||| 1 <<< _ ≠ 0
    rw [getD_zero (Bitset.reset_false_data_zero cell), Nat.zero_or,
      Nat.one_shiftLeft]
    have := Nat.two_pow_pos (pool.getD (w1.rng.draw (pool.length - 1)).1 0 % Stride)
    omega
  · rw [getD_zero (Bitset.reset_false_data_zero cell), Nat.zero_or,
      Nat.one_shiftLeft]
    exact two_pow_and_pred _

theorem collapseCell_fieldW {T : Type} (w : Wave T) (id : Nat) :
    (w.collapseCell id).fieldW = w.fieldW := rfl

theorem collapseCell_fieldH {T : Type} (w : Wave T) (id : Nat) :
    (w.collapseCell id).fieldH = w.fieldH := rfl

theorem collapseCell_field_length {T : Type} (w : Wave T) (id : Nat) :
    (w.collapseCell id).field.length = w.field.length := by
  unfold Wave.collapseCell
  dsimp only
  rw [List.length_set, filterCandidates_field_length]

/-- All ids enqueued by `propagate` are in-bounds. -/
theorem propagate_bound {T : Type} (w : Wave T) (id0 : Nat) (q : List Nat)
    (vis : List Bool) (hW : 0 < w.fieldW)
    (hq : ∀ c ∈ q, c < w.fieldW * w.fieldH)
    (hid : id0 < w.fieldW * w.fieldH) :
    ∀ c ∈ w.propagate id0 q vis, c < w.fieldW * w.fieldH := by
  have hx := coord_x_lt w id0 hW
  have hy := coord_y_lt w id0 hW hid
  have hpush : ∀ (q : List Nat) (id : Nat),
      (∀ c ∈ q, c < w.fieldW * w.fieldH) → id < w.fieldW * w.fieldH →
      ∀ c ∈ (if vis.getD id false = false ∧
            (w.field.getD id default).single = false
          then q ++ [id] else q), c < w.fieldW * w.fieldH := by
    intro q id hq hb c hc
    split at hc
    · rcases List.mem_append.mp hc with h | h
      · exact hq c h
      · simp only [List.mem_singleton] at h
        subst h
        exact hb
    · exact hq c hc
  unfold Wave.propagate Wave.fieldIndex
  dsimp only
  generalize id0 % w.fieldW = xv at hx ⊢
  generalize id0 / w.fieldW = yv at hy ⊢
  by_cases h1 : yv > 0 <;> by_cases h2 : yv < w.fieldH - 1 <;>
    by_cases h3 : xv > 0 <;> by_cases h4 : xv < w.fieldW - 1 <;>
    simp only [h1, h2, h3, h4, if_true, if_false] <;>
    repeat'
      first
      | exact hq
      | apply hpush _ _ ?_ (fieldIndex_lt (by omega) (by omega))

/-- The BFS loop appends to the log exactly one entry per examined cell:
each examined cell was unvisited when popped and is marked at once, so no
cell is examined twice, and every examined cell was unvisited at entry. -/
theorem stepLoop_spec {T : Type} :
    ∀ (fuel : Nat) (w : Wave T) (q : List Nat) (vis : List Bool)
      (log : List (Nat × Nat)) (w' : Wave T) (log' : List (Nat × Nat)),
      stepLoop fuel w q vis log = some (w', log') →
      0 < w.fieldW →
      w.field.length = w.fieldW * w.fieldH →
      vis.length = w.field.length →
      (∀ c ∈ q, c < vis.length) →
      ∃ ex : List Nat,
        log' = log ++ ex.map (fun c => (c % w.fieldW, c / w.fieldW)) ∧
        ex.Nodup ∧
        ∀ c ∈ ex, c < vis.length ∧ vis.getD c false = false := by
  intro fuel
  induction fuel with
  | zero =>
    intro w q vis log w' log' h hW hWH hvl hq
    cases q with
    | nil =>
      obtain ⟨rfl, rfl⟩ : w = w' ∧ log = log' := by
        have := Option.some.inj h
        exact ⟨congrArg Prod.fst this, congrArg Prod.snd this⟩
      exact ⟨[], by simp, List.nodup_nil, by simp⟩
    | cons c rest => simp [stepLoop] at h
  | succ fuel ih =>
    intro w q vis log w' log' h hW hWH hvl hq
    cases q with
    | nil =>
      obtain ⟨rfl, rfl⟩ : w = w' ∧ log = log' := by
        have := Option.some.inj h
        exact ⟨congrArg Prod.fst this, congrArg Prod.snd this⟩
      exact ⟨[], by simp, List.nodup_nil, by simp⟩
    | cons c rest =>
      have heq : stepLoop (fuel + 1) w (c :: rest) vis log
          = if vis.getD c false then stepLoop fuel w rest vis log
            else
              if (w.field.getD c default).count = 1 then
                stepLoop fuel w rest (vis.set c true) log
              else
                stepLoop fuel (w.filterCandidates c)
                  (if (w.field.getD c default).count
                      ≠ ((w.filterCandidates c).field.getD c default).count then
                    (w.filterCandidates c).propagate c rest (vis.set c true)
                  else rest)
                  (vis.set c true)
                  (log ++ [(c % w.fieldW, c / w.fieldW)]) := rfl
      rw [heq] at h
      have hc : c < vis.length := hq c (List.mem_cons_self c rest)
      have hqrest : ∀ x ∈ rest, x < vis.length :=
        fun x hx => hq x (List.mem_cons_of_mem c hx)
      by_cases hvisc : vis.getD c false = true
      · rw [if_pos hvisc] at h
        exact ih w rest vis log w' log' h hW hWH hvl hqrest
      · rw [if_neg hvisc] at h
        have hviscf : vis.getD c false = false := by
          cases hcc : vis.getD c false
          · rfl
          · exact absurd hcc hvisc
        have hvl2 : (vis.set c true).length = w.field.length := by
          rw [List.length_set]
          exact hvl
        have hconv : ∀ (ex : List Nat),
            (∀ x ∈ ex, x < (vis.set c true).length ∧
              (vis.set c true).getD x false = false) →
            (∀ x ∈ ex, x < vis.length ∧ vis.getD x false = false) ∧ c ∉ ex := by
          intro ex hex
          have hne : ∀ x ∈ ex, x ≠ c := by
            intro x hx hxx
            subst hxx
            obtain ⟨_, hx2⟩ := hex x hx
            rw [getD_set_self hc] at hx2
            simp at hx2
          constructor
          · intro x hx
            obtain ⟨hx1, hx2⟩ := hex x hx
            rw [getD_set_ne (fun hh => (hne x hx) hh.symm)] at hx2
            exact ⟨by simpa using hx1, hx2⟩
          · intro hcex
            exact (hne c hcex) rfl
        by_cases hcnt : (w.field.getD c default).count = 1
        · rw [if_pos hcnt] at h
          obtain ⟨ex, hlog, hnd, hex⟩ :=
            ih w rest (vis.set c true) log w' log' h hW hWH hvl2
              (fun x hx => by rw [List.length_set]; exact hqrest x hx)
          exact ⟨ex, hlog, hnd, fun x hx => (hconv ex hex).1 x hx⟩
        · rw [if_neg hcnt] at h
          have hW2 : 0 < (w.filterCandidates c).fieldW := by
            rw [filterCandidates_fieldW]
            exact hW
          have hWH2 : (w.filterCandidates c).field.length
              = (w.filterCandidates c).fieldW * (w.filterCandidates c).fieldH := by
            rw [filterCandidates_field_length, filterCandidates_fieldW,
              filterCandidates_fieldH]
            exact hWH
          have hvl3 : (vis.set c true).length
              = (w.filterCandidates c).field.length := by
            rw [filterCandidates_field_length]
            exact hvl2
          have hfront : ∀ x ∈ (if (w.field.getD c default).count
                ≠ ((w.filterCandidates c).field.getD c default).count then
              (w.filterCandidates c).propagate c rest (vis.set c true)
            else rest), x < (vis.set c true).length := by
            intro x hx
            rw [List.length_set, hvl, hWH]
            split at hx
            · refine propagate_bound (w.filterCandidates c) c rest (vis.set c true)
                ?_ ?_ ?_ x hx
              · rw [filterCandidates_fieldW]
                exact hW
              · intro y hy
                rw [filterCandidates_fieldW, filterCandidates_fieldH]
                have := hqrest y hy
                rw [hvl, hWH] at this
                exact this
              · rw [filterCandidates_fieldW, filterCandidates_fieldH]
                rw [hvl, hWH] at hc
                exact hc
            · have := hqrest x hx
              rw [hvl, hWH] at this
              exact this
          obtain ⟨ex, hlog, hnd, hex⟩ :=
            ih (w.filterCandidates c) _ (vis.set c true)
              (log ++ [(c % w.fieldW, c / w.fieldW)]) w' log' h hW2 hWH2 hvl3
              hfront
          simp only [filterCandidates_fieldW] at hlog
          refine ⟨c :: ex, ?_, ?_, ?_⟩
          · rw [hlog]
            simp
          · exact List.nodup_cons.mpr ⟨(hconv ex hex).2, hnd⟩
          · intro x hx
            rcases List.mem_cons.mp hx with rfl | hx
            · exact ⟨hc, hviscf⟩
            · exact (hconv ex hex).1 x hx

theorem getD_map_single (l : List Bitset) (c : Nat) (hc : c < l.length) :
    (l.map Bitset.single).getD c false = (l.getD c default).single := by
  rw [List.getD_eq_getElem?_getD, List.getD_eq_getElem?_getD,
    List.getElem?_map, List.getElem?_eq_getElem hc]
  rfl

theorem coords_inj {W : Nat} (hW : 0 < W) :
    Function.Injective (fun c : Nat => (c % W, c / W)) := by
  intro a b hab
  simp only [Prod.mk.injEq] at hab
  rw [← Nat.div_add_mod a W, ← Nat.div_add_mod b W, hab.1, hab.2]

/-- C8, amended: during one observation step with a callback, the
callback fires exactly once for the observed cell (first), and exactly
once for each distinct cell examined during propagation — popped from the
wavefront while unvisited and not yet a singleton — whether or not its
candidate set changed.  No cell receives two callbacks in one step.
(The original claim is false: an examined cell whose set did not change
still gets a callback, see the counterexample.) -/
theorem c8_collapseStep_callbacks {T : Type} (fuel : Nat) (w : Wave T)
    (id0 : Nat) (log : List (Nat × Nat)) (w' : Wave T)
    (log' : List (Nat × Nat)) (hwf : WaveWF w) (hid : id0 < w.field.length)
    (h : Wave.collapseStep fuel w id0 log = some (w', log')) :
    ∃ ex : List Nat,
      log' = log ++ (id0 % w.fieldW, id0 / w.fieldW)
          :: ex.map (fun c => (c % w.fieldW, c / w.fieldW)) ∧
      ((id0 % w.fieldW, id0 / w.fieldW)
          :: ex.map (fun c => (c % w.fieldW, c / w.fieldW))).Nodup ∧
      id0 ∉ ex ∧
      ∀ c ∈ ex, c < w.field.length ∧
        ((w.collapseCell id0).field.getD c default).single = false := by
  have hW : 0 < w.fieldW := hwf.2.1
  have hWH : w.field.length = w.fieldW * w.fieldH := hwf.2.2.1
  have heq : Wave.collapseStep fuel w id0 log
      = stepLoop fuel (w.collapseCell id0)
          ((w.collapseCell id0).propagate id0 []
            ((w.collapseCell id0).field.map fun b => b.single))
          ((w.collapseCell id0).field.map fun b => b.single)
          (log ++ [(id0 % (w.collapseCell id0).fieldW,
            id0 / (w.collapseCell id0).fieldW)]) := rfl
  rw [heq] at h
  have hW1 : 0 < (w.collapseCell id0).fieldW := by
    rw [collapseCell_fieldW]
    exact hW
  have hWH1 : (w.collapseCell id0).field.length
      = (w.collapseCell id0).fieldW * (w.collapseCell id0).fieldH := by
    rw [collapseCell_field_length, collapseCell_fieldW, collapseCell_fieldH]
    exact hWH
  have hvl : ((w.collapseCell id0).field.map fun b => b.single).length
      = (w.collapseCell id0).field.length := List.length_map _ _
  have hid1 : id0 < (w.collapseCell id0).field.length := by
    rw [collapseCell_field_length]
    exact hid
  have hfront : ∀ x ∈ (w.collapseCell id0).propagate id0 []
      ((w.collapseCell id0).field.map fun b => b.single),
      x < ((w.collapseCell id0).field.map fun b => b.single).length := by
    intro x hx
    rw [hvl, hWH1]
    refine propagate_bound _ id0 [] _ hW1 (by simp) ?_ x hx
    rw [← hWH1]
    exact hid1
  obtain ⟨ex, hlog, hnd, hex⟩ := stepLoop_spec fuel (w.collapseCell id0) _ _ _
    w' log' h hW1 hWH1 hvl hfront
  simp only [collapseCell_fieldW] at hlog
  have hexprops : ∀ c ∈ ex, c < w.field.length ∧
      ((w.collapseCell id0).field.getD c default).single = false := by
    intro c hcm
    obtain ⟨hc1, hc2⟩ := hex c hcm
    rw [hvl, collapseCell_field_length] at hc1
    refine ⟨hc1, ?_⟩
    rw [← getD_map_single _ c (by rw [collapseCell_field_length]; exact hc1)]
    exact hc2
  have hid0notin : id0 ∉ ex := by
    intro hmem
    obtain ⟨_, hc2⟩ := hex id0 hmem
    rw [getD_map_single _ id0 hid1, collapseCell_single id0 hwf hid] at hc2
    simp at hc2
  refine ⟨ex, ?_, ?_, hid0notin, hexprops⟩
  · rw [hlog]
    simp
  · refine List.nodup_cons.mpr ⟨?_, hnd.map (coords_inj hW)⟩
    intro hmem
    obtain ⟨c, hcm, hcoords⟩ := List.mem_map.mp hmem
    have : c = id0 := coords_inj hW hcoords
    subst this
    exact hid0notin hcm

/-- The 2×1 wave over the two one-cell tiles of the pattern `[0, 1]`
(window 1×1): all adjacency rules allow everything. -/
def wTwoTiles : Wave Nat := (Wave.new Nat 2 1).initFromPattern mt0 0 [0, 1] 2 1 1 1 7

/-- C8, counterexample: one `collapse(oneStep = true)` on `wTwoTiles`
observes cell `(0,0)` and examines cell `(1,0)`, whose candidate set does
not change (it is still the initial all-set `{data := [3], size := 2}`);
yet the callback log is `[(0,0), (1,0)]` — the callback was invoked for a
cell whose candidate set did not change during propagation, refuting the
claim that it fires only for changed cells plus the observed cell. -/
theorem c8_counterexample :
    wTwoTiles.field = [⟨[3], 2⟩, ⟨[3], 2⟩] ∧
      (Wave.collapse true 5 5 wTwoTiles).map
          (fun r => (r.1, r.2.1.field, r.2.2))
        = some (false, [⟨[1], 2⟩, ⟨[3], 2⟩], [(0, 0), (1, 0)]) := by
  decide

def c8run : Option (Wave Nat × List (Nat × Nat)) :=
  Wave.collapseStep 5 wTwoTiles 0 []

def wC8after : Wave Nat :=
  match c8run with
  | some r => r.1
  | none => wTwoTiles

def logC8after : List (Nat × Nat) :=
  match c8run with
  | some r => r.2
  | none => []

theorem c8_collapseStep_callbacks_witness :
    ∃ ex : List Nat,
      logC8after = [] ++ (0 % wTwoTiles.fieldW, 0 / wTwoTiles.fieldW)
          :: ex.map (fun c => (c % wTwoTiles.fieldW, c / wTwoTiles.fieldW)) ∧
      ((0 % wTwoTiles.fieldW, 0 / wTwoTiles.fieldW)
          :: ex.map (fun c => (c % wTwoTiles.fieldW, c / wTwoTiles.fieldW))).Nodup ∧
      0 ∉ ex ∧
      ∀ c ∈ ex, c < wTwoTiles.field.length ∧
        ((wTwoTiles.collapseCell 0).field.getD c default).single = false :=
  c8_collapseStep_callbacks 5 wTwoTiles 0 [] wC8after logC8after
    (by decide) (by decide) rfl

end C011apsy
